import Mathlib

/-!
Shallow embedding of the econoplus-walmart-history pipeline
(`scripts/build_indexes.py` and `scripts/split_by_store.py`).

Strings are Lean `String`s, prices are exact rationals, JSON documents are
an explicit inductive, and the filesystem consulted by the scripts is an
explicit data structure.  Python dicts (which preserve insertion order and
update keys in place) are modelled as association lists with an in-place
`set` operation.
-/

namespace EconoPlus

/-- The character class `[a-z0-9]` of the slugification regex. -/
def isSlugChar (c : Char) : Bool :=
  (('a' ≤ c && c ≤ 'z') || ('0' ≤ c && c ≤ '9'))

/-- Drop leading characters satisfying `p` (one side of Python `str.strip`). -/
def stripLeft (p : Char → Bool) (l : List Char) : List Char :=
  l.dropWhile p

/-- Drop trailing characters satisfying `p`. -/
def stripRight (p : Char → Bool) (l : List Char) : List Char :=
  (l.reverse.dropWhile p).reverse

/-- Python `str.strip()` restricted to its ASCII behaviour. -/
def pyStrip (l : List Char) : List Char :=
  stripRight Char.isWhitespace (stripLeft Char.isWhitespace l)

/-- Python `str.strip("-")`. -/
def stripHyphens (l : List Char) : List Char :=
  stripRight (fun c => c = '-') (stripLeft (fun c => c = '-') l)

/-- `re.sub(r"[^a-z0-9]+", "-", ...)`: every maximal run of non-slug
characters becomes a single hyphen.  The flag records whether we are
currently inside such a run. -/
def collapseFrom : Bool → List Char → List Char
  | _, [] => []
  | inRun, c :: rest =>
    if isSlugChar c then c :: collapseFrom false rest
    else if inRun then collapseFrom true rest
    else '-' :: collapseFrom true rest

/-- `slugify` from both scripts: strip, lower-case, collapse non-alphanumeric
runs to single hyphens, strip edge hyphens, with a reserved fallback for an
empty result. -/
def slugify (value : String) : String :=
  let l := (pyStrip value.data).map Char.toLower
  let core := stripHyphens (collapseFrom false l)
  if core.isEmpty then "unknown-store" else String.mk core

/-- The maximal runs of slug characters of a string, in order.  This is the
specification-level skeleton of a label: `slugify` is characterised as
joining these runs with single hyphens. -/
def segs : List Char → List (List Char)
  | [] => []
  | c :: rest =>
    if isSlugChar c then
      (c :: rest.takeWhile isSlugChar) :: segs (rest.dropWhile isSlugChar)
    else
      segs (rest.dropWhile (fun d => !isSlugChar d))
termination_by l => l.length
decreasing_by
  · exact Nat.lt_succ_of_le (List.dropWhile_sublist isSlugChar).length_le
  · exact Nat.lt_succ_of_le (List.dropWhile_sublist (fun d => !isSlugChar d)).length_le

/-- Join character runs with single hyphens between consecutive runs. -/
def joinSegs : List (List Char) → List Char
  | [] => []
  | [s] => s
  | s :: t :: rest => s ++ '-' :: joinSegs (t :: rest)

/-- The skeleton of a raw store label: its maximal lower-cased alphanumeric
runs.  Two labels with the same skeleton differ only in letter case and in
the choice of non-alphanumeric separator characters. -/
def labelSkeleton (s : String) : List (List Char) :=
  segs (s.data.map Char.toLower)

/-! ### Insertion-ordered maps (Python dicts)

A Python dict preserves insertion order; assigning to an existing key
updates it in place, assigning to a fresh key appends it.  `AList.set`
models exactly that on an association list. -/

/-- Look up the first binding of `k`. -/
def AList.find : List (String × β) → String → Option β
  | [], _ => none
  | (k₁, v₁) :: rest, k => if k₁ = k then some v₁ else AList.find rest k

/-- `d[k] = v` on an insertion-ordered dict. -/
def AList.set : List (String × β) → String → β → List (String × β)
  | [], k, v => [(k, v)]
  | (k₁, v₁) :: rest, k, v =>
    if k₁ = k then (k₁, v) :: rest else (k₁, v₁) :: AList.set rest k v

/-! ### Stable sorting

Python `sorted` is a stable sort.  `sortByLt lt` is the stable insertion
sort for the strict comparison `lt`: an element is inserted after exactly
those earlier elements that compare strictly before it. -/

/-- Insert `x` (which originally preceded every element of the list) into a
sorted list, keeping it before every element it ties with. -/
def insertByLt (lt : α → α → Bool) (x : α) : List α → List α
  | [] => [x]
  | y :: ys => if lt y x then y :: insertByLt lt x ys else x :: y :: ys

/-- Stable sort by the strict comparison `lt`. -/
def sortByLt (lt : α → α → Bool) : List α → List α
  | [] => []
  | x :: xs => insertByLt lt x (sortByLt lt xs)

/-- Strict lexicographic comparison of character lists by code point. -/
def charListLt : List Char → List Char → Bool
  | _, [] => false
  | [], _ :: _ => true
  | a :: as, b :: bs =>
    if a.toNat < b.toNat then true
    else if b.toNat < a.toNat then false
    else charListLt as bs

/-- Strict lexicographic comparison of strings, as Python compares them. -/
def strLt (a b : String) : Bool := charListLt a.data b.data

/-! ### The data model -/

/-- The parsed JSON value found in a record field that is fed to
`to_float`: absent/null, a JSON number, a JSON string, or any other
JSON value (list, object, boolean). -/
inductive PriceVal where
  | pnone : PriceVal
  | pnum : ℚ → PriceVal
  | pstr : String → PriceVal
  | pother : PriceVal
deriving DecidableEq

/-- One product record as read from a snapshot file.  All fields are
optional; `in_stock` models `bool(item.get("in_stock", False))`, i.e. the
truthiness of the raw field. -/
structure RawItem where
  sku : Option String := none
  url : Option String := none
  title : Option String := none
  image : Option String := none
  store_slug : Option String := none
  store : Option String := none
  price_current : PriceVal := .pnone
  in_stock : Bool := false
deriving DecidableEq

/-- A parsed JSON document as classified by `load_items`: a top-level list,
an object whose `items` field is a list, an object without a usable
`items` list, or any other top-level value. -/
inductive JsonElem where
  | record : RawItem → JsonElem
  | nonRecord : JsonElem
deriving DecidableEq

inductive JsonDoc where
  | arr : List JsonElem → JsonDoc
  | objItems : List JsonElem → JsonDoc
  | objOther : JsonDoc
  | scalar : JsonDoc
deriving DecidableEq

/-- Truthiness of an optional string field (`None` and `""` are falsy). -/
def truthy : Option String → Bool
  | none => false
  | some s => !(s = "")

/-- Python `a or b` on two optional string fields. -/
def orStr (a b : Option String) : Option String :=
  if truthy a then a else b

/-- `load_items` of `scripts/build_indexes.py`: tolerant reader returning
`[]` for unsupported top-level shapes and dropping non-dict elements. -/
def load_items : JsonDoc → List RawItem
  | .arr es => es.filterMap (fun e => match e with | .record r => some r | .nonRecord => none)
  | .objItems es => es.filterMap (fun e => match e with | .record r => some r | .nonRecord => none)
  | .objOther => []
  | .scalar => []

/-- `load_items` of `scripts/split_by_store.py`: same two supported shapes,
but unsupported shapes raise `ValueError` instead of recovering. -/
def load_items_split : JsonDoc → Except String (List RawItem)
  | .arr es => .ok (es.filterMap (fun e => match e with | .record r => some r | .nonRecord => none))
  | .objItems es => .ok (es.filterMap (fun e => match e with | .record r => some r | .nonRecord => none))
  | .objOther => .error "Unsupported input format"
  | .scalar => .error "Unsupported input format"

/-! ### Price parsing (`to_float`) -/

/-- Digits of a numeral, most significant first, as a natural number. -/
def natOfDigits (l : List Char) : Nat :=
  l.foldl (fun acc c => acc * 10 + (c.toNat - '0'.toNat)) 0

/-- Parse the text accepted by Python `float` (sign, decimal digits with an
optional fractional part and exponent; surrounding whitespace allowed).
`inf`, `nan` and digit-group underscores are not modelled. -/
def parseFloatChars (l : List Char) : Option ℚ :=
  let l := pyStrip l
  let (sign, l) : Bool × List Char :=
    match l with
    | '-' :: rest => (true, rest)
    | '+' :: rest => (false, rest)
    | _ => (false, l)
  let intPart := l.takeWhile Char.isDigit
  let l := l.dropWhile Char.isDigit
  let (fracPart, l) : List Char × List Char :=
    match l with
    | '.' :: rest => (rest.takeWhile Char.isDigit, rest.dropWhile Char.isDigit)
    | _ => ([], l)
  if intPart.isEmpty && fracPart.isEmpty then none
  else
    let num : Int := natOfDigits intPart * 10 ^ fracPart.length + natOfDigits fracPart
    let den : Nat := 10 ^ fracPart.length
    let signed : Int → Int := fun n => if sign then -n else n
    match l with
    | [] => some (mkRat (signed num) den)
    | e :: rest =>
      if e = 'e' || e = 'E' then
        let (esign, rest) : Bool × List Char :=
          match rest with
          | '-' :: r => (true, r)
          | '+' :: r => (false, r)
          | _ => (false, rest)
        let eDigits := rest.takeWhile Char.isDigit
        if eDigits.isEmpty || !(rest.dropWhile Char.isDigit).isEmpty then none
        else
          let ex : Nat := 10 ^ natOfDigits eDigits
          some (if esign then mkRat (signed num) (den * ex)
                else mkRat (signed num * ex) den)
      else none

/-- `to_float` from `scripts/build_indexes.py`: numbers pass through,
numeric-looking strings are stripped of `$` and `,` and parsed, anything
else is `None`. -/
def to_float : PriceVal → Option ℚ
  | .pnone => none
  | .pnum q => some q
  | .pstr s =>
    let cleaned := (pyStrip s.data).filter (fun c => c ≠ '$' ∧ c ≠ ',')
    if cleaned.isEmpty then none else parseFloatChars cleaned
  | .pother => none

/-! ### Date parsing (`parse_date` / `datetime.strptime "%Y-%m-%d"`)

CPython's `%Y` matches exactly four digits while `%m` and `%d` each match
one or two digits (`1[0-2]|0[1-9]|[1-9]` and `3[01]|[12]\d|0[1-9]|[1-9]`),
the whole string must be consumed, and the resulting triple must be a
valid proleptic-Gregorian date with year at least 1. -/

def isLeapYear (y : Nat) : Bool :=
  (y % 4 = 0 && y % 100 ≠ 0) || y % 400 = 0

def daysInMonth (y m : Nat) : Nat :=
  if m = 2 then (if isLeapYear y then 29 else 28)
  else if m = 4 ∨ m = 6 ∨ m = 9 ∨ m = 11 then 30
  else 31

/-- `parse_date` on the character list of a directory name. -/
def parseDateChars (l : List Char) : Option (Nat × Nat × Nat) :=
  match l with
  | y₁ :: y₂ :: y₃ :: y₄ :: '-' :: rest =>
    if y₁.isDigit && y₂.isDigit && y₃.isDigit && y₄.isDigit then
      let y := natOfDigits [y₁, y₂, y₃, y₄]
      let ms := rest.takeWhile Char.isDigit
      match rest.dropWhile Char.isDigit with
      | '-' :: rest₂ =>
        let ds := rest₂.takeWhile Char.isDigit
        if (rest₂.dropWhile Char.isDigit).isEmpty then
          let m := natOfDigits ms
          let d := natOfDigits ds
          if 1 ≤ ms.length && ms.length ≤ 2 && 1 ≤ ds.length && ds.length ≤ 2 &&
              1 ≤ m && m ≤ 12 && 1 ≤ d && d ≤ 31 &&
              1 ≤ y && d ≤ daysInMonth y m then
            some (y, m, d)
          else none
        else none
      | _ => none
    else none
  | _ => none

/-- `parse_date` from `scripts/build_indexes.py`:
`datetime.strptime(folder_name, "%Y-%m-%d")`, `none` modelling the
`ValueError` of an unparseable name. -/
def parse_date (s : String) : Option (Nat × Nat × Nat) :=
  parseDateChars s.data

/-! ### SHA-1 (the `hashlib.sha1` digest used for content fingerprints)

Machine words are naturals reduced mod `2^32`. -/

def w32 : Nat := 4294967296

/-- Rotate a 32-bit word left by `n` bits. -/
def rotl (n x : Nat) : Nat :=
  ((x <<< n) + (x >>> (32 - n))) % w32

/-- UTF-8 encoding of one scalar value. -/
def utf8Char (c : Char) : List Nat :=
  let n := c.toNat
  if n < 128 then [n]
  else if n < 2048 then [192 + n / 64, 128 + n % 64]
  else if n < 65536 then [224 + n / 4096, 128 + n / 64 % 64, 128 + n % 64]
  else [240 + n / 262144, 128 + n / 4096 % 64, 128 + n / 64 % 64, 128 + n % 64]

/-- UTF-8 encoding of a string (`str.encode("utf-8")`). -/
def utf8Bytes (s : String) : List Nat :=
  s.data.flatMap utf8Char

/-- Big-endian bytes of a 32-bit word. -/
def word32Bytes (x : Nat) : List Nat :=
  [x / 16777216 % 256, x / 65536 % 256, x / 256 % 256, x % 256]

/-- Big-endian bytes of a 64-bit length. -/
def word64Bytes (x : Nat) : List Nat :=
  word32Bytes (x / w32 % w32) ++ word32Bytes (x % w32)

/-- SHA-1 padding: `0x80`, zeros to 56 mod 64, then the bit length. -/
def sha1Pad (msg : List Nat) : List Nat :=
  let padLen := (55 + 64 - msg.length % 64) % 64 + 1
  msg ++ (128 :: List.replicate (padLen - 1) 0) ++ word64Bytes (msg.length * 8)

/-- The first 16 words (big-endian) of a 64-byte block. -/
def sha1Words16 (block : List Nat) : List Nat :=
  (List.range 16).map (fun i => ((block.drop (4 * i)).take 4).foldl (fun a b => a * 256 + b) 0)

/-- The full 80-word message schedule of one block. -/
def sha1Words (block : List Nat) : List Nat :=
  (List.range 64).foldl
    (fun ws _ =>
      let n := ws.length
      ws ++ [rotl 1 ((ws.getD (n - 3) 0) ^^^ (ws.getD (n - 8) 0) ^^^
        (ws.getD (n - 14) 0) ^^^ (ws.getD (n - 16) 0))])
    (sha1Words16 block)

/-- One round of the SHA-1 compression function. -/
def sha1Round (ws : List Nat) (st : Nat × Nat × Nat × Nat × Nat) (i : Nat) :
    Nat × Nat × Nat × Nat × Nat :=
  let (a, b, c, d, e) := st
  let f : Nat :=
    if i < 20 then (b &&& c) ||| ((w32 - 1 - b) &&& d)
    else if i < 40 then b ^^^ c ^^^ d
    else if i < 60 then (b &&& c) ||| (b &&& d) ||| (c &&& d)
    else b ^^^ c ^^^ d
  let k : Nat :=
    if i < 20 then 1518500249
    else if i < 40 then 1859775393
    else if i < 60 then 2400959708
    else 3395469782
  let temp := (rotl 5 a + f + e + k + ws.getD i 0) % w32
  (temp, a, rotl 30 b, c, d)

/-- Compress one 64-byte block into the running state. -/
def sha1Block (st : Nat × Nat × Nat × Nat × Nat) (block : List Nat) :
    Nat × Nat × Nat × Nat × Nat :=
  let (h₀, h₁, h₂, h₃, h₄) := st
  let ws := sha1Words block
  let (a, b, c, d, e) := (List.range 80).foldl (sha1Round ws) (h₀, h₁, h₂, h₃, h₄)
  ((h₀ + a) % w32, (h₁ + b) % w32, (h₂ + c) % w32, (h₃ + d) % w32, (h₄ + e) % w32)

/-- The 64-byte chunks of the padded message. -/
def chunks64 (l : List Nat) : List (List Nat) :=
  (List.range (l.length / 64)).map (fun i => (l.drop (64 * i)).take 64)

/-- SHA-1 digest (20 bytes) of a byte message. -/
def sha1 (msg : List Nat) : List Nat :=
  let (h₀, h₁, h₂, h₃, h₄) :=
    (chunks64 (sha1Pad msg)).foldl sha1Block
      (1732584193, 4023233417, 2562383102, 271733878, 3285377520)
  word32Bytes h₀ ++ word32Bytes h₁ ++ word32Bytes h₂ ++ word32Bytes h₃ ++ word32Bytes h₄

/-- One lower-case hexadecimal digit. -/
def hexChar (n : Nat) : Char :=
  if n < 10 then Char.ofNat (48 + n) else Char.ofNat (87 + n)

/-- Lower-case hex rendering of a byte list (`.hexdigest()`). -/
def toHex (bytes : List Nat) : List Char :=
  bytes.flatMap (fun b => [hexChar (b / 16 % 16), hexChar (b % 16)])

/-- `hashlib.sha1(f"{title}|{image}".encode()).hexdigest()[:16]`. -/
def fingerprint16 (title image : String) : String :=
  String.mk ((toHex (sha1 (utf8Bytes (title ++ "|" ++ image)))).take 16)

/-! ### URL-id extraction (`extract_url_id`)

The three `re.search` patterns are `/ip/.+/(\d{6,})`, `/(\d{8,})` and
`/([A-Z0-9]{8,})`, tried in that order.  `re.search` finds the leftmost
starting position admitting a match; quantifiers are greedy, so a matched
digit run is maximal, and for the first pattern the greedy `.+` picks the
rightmost slash (not preceded by a newline, which `.` cannot cross) that
is still followed by at least six digits. -/

def isUpperAlnum (c : Char) : Bool :=
  (('A' ≤ c && c ≤ 'Z') || ('0' ≤ c && c ≤ '9'))

/-- Search for the leftmost `/` followed by at least `n` characters
satisfying `p`; return that maximal run (patterns 2 and 3). -/
def findSlashRun (n : Nat) (p : Char → Bool) : List Char → Option (List Char)
  | [] => none
  | c :: rest =>
    if c = '/' then
      let run := rest.takeWhile p
      if n ≤ run.length then some run else findSlashRun n p rest
    else findSlashRun n p rest

/-- After a `/ip/` prefix, find the last `/` at position at least 1 that is
followed by at least six digits and preceded by no newline, returning the
maximal digit run after it (the greedy `.+/(\d{6,})` tail). -/
def ipTail (pos : Nat) (acc : Option (List Char)) : List Char → Option (List Char)
  | [] => acc
  | c :: rest =>
    if c = '\n' then acc
    else
      let run := rest.takeWhile Char.isDigit
      let acc₁ := if c = '/' ∧ 1 ≤ pos ∧ 6 ≤ run.length then some run else acc
      ipTail (pos + 1) acc₁ rest

/-- `re.search(r"/ip/.+/(\d{6,})", url)`: try every occurrence of the
literal `/ip/` from the left, completing each with the greedy tail. -/
def findIpMatch : List Char → Option (List Char)
  | [] => none
  | c :: rest =>
    if (c :: rest).take 4 = ['/', 'i', 'p', '/'] then
      match ipTail 0 none ((c :: rest).drop 4) with
      | some run => some run
      | none => findIpMatch rest
    else findIpMatch rest

/-- `extract_url_id` from `scripts/build_indexes.py`. -/
def extract_url_id : Option String → Option String
  | none => none
  | some u =>
    if u = "" then none
    else
      match findIpMatch u.data with
      | some run => some (String.mk run)
      | none =>
        match findSlashRun 8 Char.isDigit u.data with
        | some run => some (String.mk run)
        | none => (findSlashRun 8 isUpperAlnum u.data).map String.mk

/-- `make_item_key` from `scripts/build_indexes.py`: sku tier, url-id tier,
then the title-and-image content fingerprint. -/
def make_item_key (item : RawItem) : String :=
  if item.sku ≠ none ∧ item.sku ≠ some "" then
    "sku:" ++ item.sku.getD ""
  else
    match extract_url_id item.url with
    | some urlId => "urlid:" ++ urlId
    | none => "hash:" ++ fingerprint16 (item.title.getD "") (item.image.getD "")

/-- `normalize_store_slug` from `scripts/build_indexes.py`: slugify
`store_slug or store` when truthy, otherwise return the fallback
unchanged. -/
def normalize_store_slug (item : RawItem) (fallback : String) : String :=
  match orStr item.store_slug item.store with
  | some s => if s = "" then fallback else slugify s
  | none => fallback

/-! ### The filesystem model -/

/-- One entry of the `snapshots/` directory: its name, whether it is a
directory, and (for directories) the files it contains, as parsed JSON. -/
structure FsEntry where
  name : String
  isDir : Bool
  files : List (String × JsonDoc)
deriving DecidableEq

/-- The `snapshots/` root; `none` models a missing directory. -/
structure Fs where
  snapshots : Option (List FsEntry)
deriving DecidableEq

/-- `Path.stem`: the filename without its last suffix (a leading dot alone
does not start a suffix). -/
def pyStem (s : String) : String :=
  match (s.data.reverse.splitOn '.').head? with
  | some revBase =>
    if revBase.length = s.data.length ∨ revBase.length + 1 = s.data.length then s
    else String.mk (s.data.take (s.data.length - revBase.length - 1))
  | none => s

/-- `name.endswith(".json")` on explicit character lists. -/
def strEndsWith (s suffix : String) : Bool :=
  decide (s.data.drop (s.data.length - suffix.data.length) = suffix.data)

/-- `sorted(date_dir.glob("*.json"))`: the `.json` files of a directory in
name order. -/
def filesOf (dir : FsEntry) : List (String × JsonDoc) :=
  sortByLt (fun a b => strLt a.1 b.1) (dir.files.filter (fun f => strEndsWith f.1 ".json"))

/-- `iter_snapshot_dates`: directories of `snapshots/` whose names parse
under `%Y-%m-%d`, sorted ascending by name. -/
def iter_snapshot_dates (fs : Fs) : List FsEntry :=
  match fs.snapshots with
  | none => []
  | some entries =>
    sortByLt (fun a b => strLt a.name b.name)
      (entries.filter (fun e => e.isDir && (parse_date e.name).isSome))

/-- Python `l[-days:]` for an `int` argument `days`. -/
def sliceLast (days : Int) (l : List α) : List α :=
  if days = 0 then l
  else if 0 < days then l.drop (l.length - days.toNat)
  else l.drop (-days).toNat

/-! ### The history builder -/

/-- One day observation in a history sequence. -/
structure DayObs where
  date : String
  price : Option ℚ
  in_stock : Bool
  present : Bool
deriving DecidableEq

/-- Accumulated per-item state during the fold (history still keyed by
date, extrema not yet computed). -/
structure EntryAcc where
  title : Option String
  url : Option String
  image : Option String
  sku : Option String
  history : List (String × DayObs)
  last_seen : String
deriving DecidableEq

/-- A finalized history entry. -/
structure HistoryEntry where
  title : Option String
  url : Option String
  image : Option String
  sku : Option String
  history : List DayObs
  max_30d : Option ℚ
  min_30d : Option ℚ
  last_seen : String
deriving DecidableEq

/-- A per-store history output document. -/
structure StoreOut where
  store_slug : String
  updated_at : String
  items : List (String × HistoryEntry)
deriving DecidableEq

abbrev Stores := List (String × List (String × EntryAcc))

/-- The fresh entry created on first sight of an item key. -/
def initEntry (date_str : String) (item : RawItem) : EntryAcc :=
  { title := item.title, url := item.url, image := item.image, sku := item.sku,
    history := [], last_seen := date_str }

/-- Overwrite the observation for `date_str` and refresh the metadata
(`x or existing` per field, `last_seen` updated). -/
def updateEntry (date_str : String) (item : RawItem) (entry₀ : EntryAcc) : EntryAcc :=
  { entry₀ with
    history := AList.set entry₀.history date_str
      { date := date_str, price := to_float item.price_current,
        in_stock := item.in_stock, present := true },
    last_seen := date_str,
    title := orStr item.title entry₀.title,
    url := orStr item.url entry₀.url,
    image := orStr item.image entry₀.image,
    sku := orStr item.sku entry₀.sku }

/-- Fold one record into the accumulated stores (the body of the innermost
loop of `build_history`). -/
def processItem (date_str file_stem : String) (stores : Stores) (item : RawItem) : Stores :=
  let store_slug := normalize_store_slug item file_stem
  let bucket := (AList.find stores store_slug).getD []
  let item_key := make_item_key item
  let entry₀ : EntryAcc :=
    match AList.find bucket item_key with
    | some e => e
    | none => initEntry date_str item
  AList.set stores store_slug (AList.set bucket item_key (updateEntry date_str item entry₀))

/-- Fold one snapshot file (skipping the reserved combined dump). -/
def processFile (date_str : String) (stores : Stores) (f : String × JsonDoc) : Stores :=
  if f.1 = "walmart_all.json" then stores
  else (load_items f.2).foldl (processItem date_str (pyStem f.1)) stores

/-- Fold one dated directory. -/
def processDate (stores : Stores) (dir : FsEntry) : Stores :=
  (filesOf dir).foldl (processFile dir.name) stores

/-- The priced, present observations of a history sequence (the `prices`
comprehension of `build_history`). -/
def presentPrices (history : List DayObs) : List ℚ :=
  history.filterMap (fun o => if o.present then o.price else none)

/-- Python `max` over a possibly empty list (`None` when empty). -/
def listMax : List ℚ → Option ℚ
  | [] => none
  | x :: xs => some (xs.foldl max x)

/-- Python `min` over a possibly empty list (`None` when empty). -/
def listMin : List ℚ → Option ℚ
  | [] => none
  | x :: xs => some (xs.foldl min x)

/-- Synthesize absent observations for every selected date not yet in the
per-date history map. -/
def fillMissing (selected_dates : List String) (h : List (String × DayObs)) :
    List (String × DayObs) :=
  selected_dates.foldl
    (fun h d =>
      if (AList.find h d).isSome then h
      else AList.set h d { date := d, price := none, in_stock := false, present := false })
    h

/-- Finalize one accumulated entry: dense ascending history and rolling
extrema. -/
def finalizeEntry (selected_dates : List String) (e : EntryAcc) : HistoryEntry :=
  let filled := fillMissing selected_dates e.history
  let ordered := selected_dates.map (fun d =>
    (AList.find filled d).getD { date := d, price := none, in_stock := false, present := false })
  let prices := presentPrices ordered
  { title := e.title, url := e.url, image := e.image, sku := e.sku,
    history := ordered, max_30d := listMax prices, min_30d := listMin prices,
    last_seen := e.last_seen }

abbrev HistOut := List (String × StoreOut)

/-- `build_history` from `scripts/build_indexes.py`.  Returns `none` when
the Python code would crash indexing `selected_dates[-1]` on an empty
selection (possible only for non-positive `--days`); otherwise the
per-store history output and the `today` date. -/
def build_history (fs : Fs) (days : Int) (updatedAt : String) : Option (HistOut × String) :=
  let dates := iter_snapshot_dates fs
  if dates.isEmpty then some ([], "")
  else
    let selected := sliceLast days dates
    let selected_dates := selected.map (·.name)
    match selected_dates.getLast? with
    | none => none
    | some today =>
      let stores := selected.foldl processDate []
      let out : HistOut := stores.map (fun sb =>
        (sb.1,
          { store_slug := sb.1, updated_at := updatedAt,
            items := sb.2.map (fun ke => (ke.1, finalizeEntry selected_dates ke.2)) }))
      some (out, today)

/-- The snapshot directories selected for the window. -/
def selectedDirs (fs : Fs) (days : Int) : List FsEntry :=
  sliceLast days (iter_snapshot_dates fs)

/-- The date names of the selected window, ascending. -/
def selectedDates (fs : Fs) (days : Int) : List String :=
  (selectedDirs fs days).map (·.name)

/-! ### The deal detector -/

/-- One emitted deal. -/
structure DealEntry where
  item_key : String
  sku : Option String
  title : Option String
  price_today : ℚ
  max_30d : ℚ
  drop_pct : ℚ
  in_stock : Bool
  url : Option String
  image : Option String
deriving DecidableEq

/-- A per-store deals output document. -/
structure DealsFile where
  date : String
  store_slug : String
  deals : List DealEntry
deriving DecidableEq

/-- The floor of a rational, on the reduced representation. -/
def ratFloor (q : ℚ) : ℤ := q.num.fdiv q.den

/-- Round half-to-even at the integers (Python `round`). -/
def roundHalfEven (q : ℚ) : ℤ :=
  let n := ratFloor q
  let r : ℚ := q - (n : ℚ)
  if r < mkRat 1 2 then n
  else if mkRat 1 2 < r then n + 1
  else if n % 2 = 0 then n else n + 1

/-- Python `round(x, 2)` on exact rationals. -/
def round2 (q : ℚ) : ℚ :=
  (roundHalfEven (q * 100) : ℚ) / 100

/-- The per-record body of the deal loop: `none` when any guard skips the
record, otherwise the emitted deal. -/
def dealFor (history_items : List (String × HistoryEntry)) (threshold : ℚ)
    (item : RawItem) : Option DealEntry :=
  let item_key := make_item_key item
  match AList.find history_items item_key with
  | none => none
  | some entry =>
    let price_today := to_float item.price_current
    let max_30d := entry.max_30d
    if item.in_stock = false then none
    else
      match price_today, max_30d with
      | some p, some m =>
        if m ≤ 0 then none
        else
          let drop_pct := (m - p) / m * 100
          if threshold ≤ drop_pct then
            some { item_key := item_key, sku := item.sku, title := item.title,
                   price_today := p, max_30d := m, drop_pct := round2 drop_pct,
                   in_stock := item.in_stock, url := item.url, image := item.image }
          else none
      | _, _ => none

/-- The store slug a today-file resolves to: from its first record, with
the file stem as fallback, or the bare stem when the file has no
records. -/
def fileSlug (f : String × JsonDoc) : String :=
  match load_items f.2 with
  | [] => pyStem f.1
  | item :: _ => normalize_store_slug item (pyStem f.1)

/-- The history items recorded for a store slug. -/
def historyItemsAt (hist : HistOut) (slug : String) : List (String × HistoryEntry) :=
  match AList.find hist slug with
  | none => []
  | some store => store.items

/-- One today-file's contribution to the deals output. -/
def fileOut (hist : HistOut) (threshold : ℚ) (today : String) (f : String × JsonDoc) :
    String × DealsFile :=
  let slug := fileSlug f
  let deals := (load_items f.2).filterMap (dealFor (historyItemsAt hist slug) threshold)
  (slug,
    { date := today, store_slug := slug,
      deals := sortByLt (fun a b => decide (b.drop_pct < a.drop_pct)) deals })

/-- The files of the `today` snapshot directory, in processing order. -/
def todayFiles (fs : Fs) (today : String) : List (String × JsonDoc) :=
  match (fs.snapshots.getD []).find? (fun e => e.name = today) with
  | none => []
  | some dir => filesOf dir

/-- `build_deals` from `scripts/build_indexes.py`. -/
def build_deals (fs : Fs) (today : String) (hist : HistOut) (threshold : ℚ) :
    List (String × DealsFile) :=
  if today = "" then []
  else
    (todayFiles fs today).foldl
      (fun acc f =>
        if f.1 = "walmart_all.json" then acc
        else
          let so := fileOut hist threshold today f
          AList.set acc so.1 so.2)
      []

/-- `main` without the I/O: build the history, and build deals only when
the history output is non-empty. -/
def run_pipeline (fs : Fs) (days : Int) (threshold : ℚ) (updatedAt : String) :
    Option (HistOut × List (String × DealsFile)) :=
  match build_history fs days updatedAt with
  | none => none
  | some (hist, today) =>
    if hist.isEmpty then some (hist, [])
    else some (hist, build_deals fs today hist threshold)

/-- The item with resolved store `slug` and key `key` appeared in the
snapshot of date `d` within the selected window. -/
def observedIn (selected : List FsEntry) (slug key d : String) : Prop :=
  ∃ dir ∈ selected, dir.name = d ∧ ∃ f ∈ filesOf dir, f.1 ≠ "walmart_all.json" ∧
    ∃ item ∈ load_items f.2, normalize_store_slug item (pyStem f.1) = slug ∧
      make_item_key item = key

/-- Every accumulated observation is dated consistently, flagged present,
and backed by an actual record of the selected window. -/
def StoresInv (selected : List FsEntry) (stores : Stores) : Prop :=
  ∀ sb ∈ stores, ∀ ke ∈ sb.2, ∀ dobs ∈ ke.2.history,
    dobs.2.date = dobs.1 ∧ dobs.2.present = true ∧
      observedIn selected sb.1 ke.1 dobs.1

/-! ### Executable mirror of the skeleton (structural recursion) -/

/-- Accumulator version of `segs`, structurally recursive so that concrete
skeletons evaluate by kernel reduction; `segsAcc_eq` proves it equal to
`segs`. -/
def segsAcc : List Char → List Char → List (List Char)
  | cur, [] => if cur.isEmpty then [] else [cur.reverse]
  | cur, c :: rest =>
    if isSlugChar c then segsAcc (c :: cur) rest
    else if cur.isEmpty then segsAcc [] rest
    else cur.reverse :: segsAcc [] rest

/-- The claim-side reading of a zero-padded `YYYY-MM-DD` calendar date:
exactly four digits, a hyphen, exactly two digits, a hyphen, exactly two
digits, forming a valid calendar date. -/
def claimPaddedDate (s : String) : Bool :=
  match s.data with
  | [y₁, y₂, y₃, y₄, '-', m₁, m₂, '-', d₁, d₂] =>
    y₁.isDigit && y₂.isDigit && y₃.isDigit && y₄.isDigit &&
    m₁.isDigit && m₂.isDigit && d₁.isDigit && d₂.isDigit &&
    (let y := natOfDigits [y₁, y₂, y₃, y₄]
     let m := natOfDigits [m₁, m₂]
     let d := natOfDigits [d₁, d₂]
     (1 ≤ y && 1 ≤ m) && (m ≤ 12 && 1 ≤ d) && d ≤ daysInMonth y m)
  | _ => false

/-! ### Concrete fixtures used by witnesses and counterexamples -/

/-- An item observed on the first day of the witness window. -/
def itemW1 : RawItem :=
  { sku := some "X", title := some "Item X", store_slug := some "My Store!",
    price_current := .pnum 10, in_stock := true }

/-- The same item observed on the last day, cheaper, price as text. -/
def itemW2 : RawItem :=
  { sku := some "X", title := some "Item X", store_slug := some "My Store!",
    price_current := .pstr "7.00", in_stock := true }

/-- A two-day snapshot tree (directories listed out of order). -/
def fsW : Fs :=
  { snapshots := some [
      { name := "2024-01-02", isDir := true,
        files := [("my-store.json", .arr [.record itemW2])] },
      { name := "2024-01-01", isDir := true,
        files := [("my-store.json", .arr [.record itemW1])] }] }

/-- The history entry `build_history` produces for `fsW`. -/
def entryW : HistoryEntry :=
  { title := some "Item X", url := none, image := none, sku := some "X",
    history := [
      { date := "2024-01-01", price := some 10, in_stock := true, present := true },
      { date := "2024-01-02", price := some 7, in_stock := true, present := true }],
    max_30d := some 10, min_30d := some 7, last_seen := "2024-01-02" }

def storeW : StoreOut :=
  { store_slug := "my-store", updated_at := "T", items := [("sku:X", entryW)] }

/-- The history output of the `fsW` run, as fed to the deal detector. -/
def histW : HistOut := [("my-store", storeW)]

/-- A deal-detector run over `fsW` with this history finds one 30% drop. -/
def dealW : DealEntry :=
  { item_key := "sku:X", sku := some "X", title := some "Item X",
    price_today := 7, max_30d := 10, drop_pct := 30, in_stock := true,
    url := none, image := none }

def dealsFileW : DealsFile :=
  { date := "2024-01-02", store_slug := "my-store", deals := [dealW] }

/-- C4 counterexample record: raw drop `14.995`, which rounds to `15.00`. -/
def itemC4 : RawItem :=
  { sku := some "A", price_current := .pstr "17.001", in_stock := true }

def entryC4 : HistoryEntry :=
  { title := none, url := none, image := none, sku := some "A",
    history := [], max_30d := some 20, min_30d := some 20,
    last_seen := "2024-01-01" }

def histC4 : HistOut :=
  [("s", { store_slug := "s", updated_at := "T", items := [("sku:A", entryC4)] })]

def fsC4 : Fs :=
  { snapshots := some [
      { name := "2024-01-02", isDir := true,
        files := [("s.json", .arr [.record itemC4])] }] }

/-- C5 counterexample: `strptime` accepts the non-padded name `2024-9-1`,
and by name it sorts after `2024-10-01` although it is the earlier date. -/
def fsC5 : Fs :=
  { snapshots := some [
      { name := "2024-9-1", isDir := true, files := [] },
      { name := "2024-10-01", isDir := true, files := [] }] }

/-- C6 counterexample record: no store fields at all. -/
def itemC6 : RawItem := {}

/-- C7 witness records: tier-three records differing only in title. -/
def itemC7a : RawItem := { title := some "a", image := some "x" }

def itemC7b : RawItem := { title := some "b", image := some "x" }

/-! ## Lemmas about the auxiliary structures -/

theorem AList.mem_set {l : List (String × β)} {k : String} {v : β} {p : String × β}
    (hp : p ∈ AList.set l k v) : p = (k, v) ∨ p ∈ l := by
  induction l with
  | nil => simpa [AList.set] using hp
  | cons q rest ih =>
    obtain ⟨k₁, v₁⟩ := q
    by_cases hq : k₁ = k
    · simp only [AList.set, if_pos hq] at hp
      rcases List.mem_cons.mp hp with h | h
      · subst hq; left; simpa using h
      · right; exact List.mem_cons.mpr (Or.inr h)
    · simp only [AList.set, if_neg hq] at hp
      rcases List.mem_cons.mp hp with h | h
      · right; exact List.mem_cons.mpr (Or.inl h)
      · rcases ih h with h₁ | h₁
        · left; exact h₁
        · right; exact List.mem_cons.mpr (Or.inr h₁)

theorem AList.find_mem {l : List (String × β)} {k : String} {v : β}
    (h : AList.find l k = some v) : (k, v) ∈ l := by
  induction l with
  | nil => simp [AList.find] at h
  | cons q rest ih =>
    obtain ⟨k₁, v₁⟩ := q
    by_cases hq : k₁ = k
    · simp only [AList.find, if_pos hq, Option.some.injEq] at h
      subst hq; subst h; simp
    · simp only [AList.find, if_neg hq] at h
      exact List.mem_cons.mpr (Or.inr (ih h))

theorem AList.find_set_self (l : List (String × β)) (k : String) (v : β) :
    AList.find (AList.set l k v) k = some v := by
  induction l with
  | nil => simp [AList.set, AList.find]
  | cons q rest ih =>
    obtain ⟨k₁, v₁⟩ := q
    by_cases hq : k₁ = k
    · simp [AList.set, if_pos hq, AList.find]
    · simp only [AList.set, if_neg hq]
      simpa [AList.find, if_neg hq] using ih

theorem AList.find_set_ne (l : List (String × β)) (k k₀ : String) (v : β)
    (hne : k₀ ≠ k) : AList.find (AList.set l k v) k₀ = AList.find l k₀ := by
  have hne₁ : ¬k = k₀ := fun h => hne h.symm
  induction l with
  | nil => simp [AList.set, AList.find, hne₁]
  | cons q rest ih =>
    obtain ⟨k₁, v₁⟩ := q
    by_cases hq : k₁ = k
    · subst hq
      simp [AList.set, AList.find, hne₁]
    · simp only [AList.set, if_neg hq, AList.find]
      by_cases hq₀ : k₁ = k₀
      · simp [hq₀]
      · simpa [hq₀] using ih

/-! ### Stable sort lemmas -/

theorem insertByLt_perm (lt : α → α → Bool) (x : α) (l : List α) :
    List.Perm (insertByLt lt x l) (x :: l) := by
  induction l with
  | nil => simp [insertByLt]
  | cons y ys ih =>
    by_cases h : lt y x
    · simp only [insertByLt, if_pos h]
      exact (ih.cons y).trans (List.Perm.swap x y ys)
    · simp [insertByLt, if_neg h]

theorem sortByLt_perm (lt : α → α → Bool) (l : List α) : List.Perm (sortByLt lt l) l := by
  induction l with
  | nil => simp [sortByLt]
  | cons x xs ih =>
    exact (insertByLt_perm lt x (sortByLt lt xs)).trans (ih.cons x)

theorem mem_sortByLt (lt : α → α → Bool) (l : List α) (a : α) :
    a ∈ sortByLt lt l ↔ a ∈ l :=
  (sortByLt_perm lt l).mem_iff

/-- Inserting into a sorted list keeps it sorted, for a strict comparison
that is asymmetric and whose negation is transitive. -/
theorem insertByLt_pairwise (lt : α → α → Bool)
    (hasym : ∀ a b, lt a b = true → lt b a = false)
    (htrans : ∀ a b c, lt b a = false → lt c b = false → lt c a = false)
    (x : α) (s : List α) (hs : s.Pairwise (fun a b => lt b a = false)) :
    (insertByLt lt x s).Pairwise (fun a b => lt b a = false) := by
  induction s with
  | nil => simp [insertByLt]
  | cons y ys ihy =>
    rcases List.pairwise_cons.mp hs with ⟨hy, hys⟩
    by_cases h : lt y x
    · simp only [insertByLt, if_pos h]
      refine List.pairwise_cons.mpr ⟨?_, ihy hys⟩
      intro b hb
      rcases List.mem_cons.mp ((insertByLt_perm lt x ys).mem_iff.mp hb) with hbx | hby
      · subst hbx; exact hasym _ _ h
      · exact hy b hby
    · simp only [insertByLt, if_neg h]
      refine List.pairwise_cons.mpr ⟨?_, hs⟩
      intro b hb
      rcases List.mem_cons.mp hb with hby | hbys
      · subst hby; simpa using h
      · exact htrans _ _ _ (by simpa using h) (hy b hbys)

/-- Sortedness of the stable insertion sort. -/
theorem sortByLt_pairwise (lt : α → α → Bool)
    (hasym : ∀ a b, lt a b = true → lt b a = false)
    (htrans : ∀ a b c, lt b a = false → lt c b = false → lt c a = false)
    (l : List α) : (sortByLt lt l).Pairwise (fun a b => lt b a = false) := by
  induction l with
  | nil => simp [sortByLt]
  | cons x xs ih =>
    exact insertByLt_pairwise lt hasym htrans x (sortByLt lt xs) ih

theorem filter_insertByLt_neg (lt : α → α → Bool) (p : α → Bool) (x : α) (l : List α)
    (hx : p x = false) : (insertByLt lt x l).filter p = l.filter p := by
  induction l with
  | nil => simp [insertByLt, hx]
  | cons y ys ih =>
    by_cases h : lt y x
    · simp only [insertByLt, if_pos h, List.filter_cons]
      by_cases hy : p y <;> simp [hy, ih]
    · simp [insertByLt, if_neg h, List.filter_cons, hx]

theorem filter_insertByLt_pos (lt : α → α → Bool) (p : α → Bool) (x : α) (l : List α)
    (hx : p x = true) (H : ∀ y ∈ l, p y = true → lt y x = false) :
    (insertByLt lt x l).filter p = x :: l.filter p := by
  induction l with
  | nil => simp [insertByLt, hx]
  | cons y ys ih =>
    by_cases h : lt y x
    · have hy : p y = false := by
        by_contra hcon
        have := H y (by simp) (by simpa using hcon)
        simp [h] at this
      simp only [insertByLt, if_pos h, List.filter_cons, hy]
      simpa [hy] using ih (fun z hz => H z (by simp [hz]))
    · simp [insertByLt, if_neg h, List.filter_cons, hx]

/-- Stability: elements of one tie class keep their original relative
order. -/
theorem filter_sortByLt (lt : α → α → Bool) (p : α → Bool) (l : List α)
    (htie : ∀ a b, p a = true → p b = true → lt a b = false) :
    (sortByLt lt l).filter p = l.filter p := by
  induction l with
  | nil => simp [sortByLt]
  | cons x xs ih =>
    simp only [sortByLt]
    by_cases hx : p x
    · rw [filter_insertByLt_pos lt p x (sortByLt lt xs) hx
        (fun y _ hy => htie y x hy hx)]
      simp [List.filter_cons, hx, ih]
    · rw [filter_insertByLt_neg lt p x (sortByLt lt xs) (by simpa using hx)]
      simp [List.filter_cons, hx, ih]

/-! ### Python max/min lemmas -/

theorem foldl_max_mem (xs : List ℚ) (a : ℚ) : xs.foldl max a = a ∨ xs.foldl max a ∈ xs := by
  induction xs generalizing a with
  | nil => simp
  | cons x xs ih =>
    simp only [List.foldl_cons]
    rcases ih (max a x) with h | h
    · rcases max_choice a x with hm | hm
      · left; rw [h, hm]
      · right; exact List.mem_cons.mpr (Or.inl (by rw [h, hm]))
    · right; exact List.mem_cons.mpr (Or.inr h)

theorem le_foldl_max (xs : List ℚ) (a b : ℚ) (h : b ≤ a) : b ≤ xs.foldl max a := by
  induction xs generalizing a with
  | nil => simpa
  | cons x xs ih => exact ih (max a x) (h.trans (le_max_left a x))

theorem mem_le_foldl_max (xs : List ℚ) (a p : ℚ) (hp : p ∈ xs) : p ≤ xs.foldl max a := by
  induction xs generalizing a with
  | nil => simp at hp
  | cons x xs ih =>
    rcases List.mem_cons.mp hp with rfl | hpxs
    · exact le_foldl_max xs (max a p) p (le_max_right a p)
    · exact ih (max a x) hpxs

theorem listMax_eq_none {l : List ℚ} : listMax l = none ↔ l = [] := by
  cases l <;> simp [listMax]

theorem listMax_spec {l : List ℚ} {m : ℚ} (h : listMax l = some m) :
    m ∈ l ∧ ∀ p ∈ l, p ≤ m := by
  cases l with
  | nil => simp [listMax] at h
  | cons x xs =>
    simp only [listMax, Option.some.injEq] at h
    subst h
    constructor
    · rcases foldl_max_mem xs x with h₁ | h₁
      · rw [h₁]; simp
      · simp [h₁]
    · intro p hp
      rcases List.mem_cons.mp hp with rfl | hpxs
      · exact le_foldl_max xs p p le_rfl
      · exact mem_le_foldl_max xs x p hpxs

theorem foldl_min_mem (xs : List ℚ) (a : ℚ) : xs.foldl min a = a ∨ xs.foldl min a ∈ xs := by
  induction xs generalizing a with
  | nil => simp
  | cons x xs ih =>
    simp only [List.foldl_cons]
    rcases ih (min a x) with h | h
    · rcases min_choice a x with hm | hm
      · left; rw [h, hm]
      · right; exact List.mem_cons.mpr (Or.inl (by rw [h, hm]))
    · right; exact List.mem_cons.mpr (Or.inr h)

theorem foldl_min_le (xs : List ℚ) (a b : ℚ) (h : a ≤ b) : xs.foldl min a ≤ b := by
  induction xs generalizing a with
  | nil => simpa
  | cons x xs ih => exact ih (min a x) ((min_le_left a x).trans h)

theorem foldl_min_le_mem (xs : List ℚ) (a p : ℚ) (hp : p ∈ xs) : xs.foldl min a ≤ p := by
  induction xs generalizing a with
  | nil => simp at hp
  | cons x xs ih =>
    rcases List.mem_cons.mp hp with rfl | hpxs
    · exact foldl_min_le xs (min a p) p (min_le_right a p)
    · exact ih (min a x) hpxs

theorem listMin_eq_none {l : List ℚ} : listMin l = none ↔ l = [] := by
  cases l <;> simp [listMin]

theorem listMin_spec {l : List ℚ} {m : ℚ} (h : listMin l = some m) :
    m ∈ l ∧ ∀ p ∈ l, m ≤ p := by
  cases l with
  | nil => simp [listMin] at h
  | cons x xs =>
    simp only [listMin, Option.some.injEq] at h
    subst h
    constructor
    · rcases foldl_min_mem xs x with h₁ | h₁
      · rw [h₁]; simp
      · simp [h₁]
    · intro p hp
      rcases List.mem_cons.mp hp with rfl | hpxs
      · exact foldl_min_le xs p p le_rfl
      · exact foldl_min_le_mem xs x p hpxs

/-- Invariant preservation along a left fold. -/
theorem foldl_inv {f : β → α → β} {P : β → Prop} (l : List α) (init : β)
    (H : ∀ b a, a ∈ l → P b → P (f b a)) (h₀ : P init) : P (l.foldl f init) := by
  induction l generalizing init with
  | nil => simpa
  | cons x xs ih =>
    exact ih (f init x) (fun b a ha hb => H b a (by simp [ha]) hb)
      (H init x (by simp) h₀)

/-! ### Characterisation of `slugify`

`slugify` equals the hyphen-join of the maximal lower-cased alphanumeric
runs of its argument (`labelSkeleton`), with the reserved fallback for an
empty skeleton. -/

theorem mem_takeWhile_sat {p : Char → Bool} {l : List Char} {c : Char}
    (h : c ∈ l.takeWhile p) : p c = true := by
  induction l with
  | nil => simp at h
  | cons x xs ih =>
    by_cases hx : p x
    · rw [List.takeWhile_cons_of_pos hx] at h
      rcases List.mem_cons.mp h with rfl | h₁
      · exact hx
      · exact ih h₁
    · rw [List.takeWhile_cons_of_neg hx] at h
      simp at h

theorem dropWhile_head_false {p : Char → Bool} {l : List Char} {c : Char}
    {t : List Char} (h : l.dropWhile p = c :: t) : p c = false := by
  induction l with
  | nil => simp at h
  | cons x xs ih =>
    by_cases hx : p x
    · rw [List.dropWhile_cons_of_pos hx] at h
      exact ih h
    · rw [List.dropWhile_cons_of_neg hx] at h
      cases h
      simpa using hx

theorem dropWhile_append_of_ne_nil {p : Char → Bool} {A B : List Char}
    (h : A.dropWhile p ≠ []) : (A ++ B).dropWhile p = A.dropWhile p ++ B := by
  induction A with
  | nil => simp at h
  | cons x xs ih =>
    by_cases hx : p x
    · rw [List.dropWhile_cons_of_pos hx] at h
      rw [List.cons_append, List.dropWhile_cons_of_pos hx,
        List.dropWhile_cons_of_pos hx, ih h]
    · rw [List.cons_append, List.dropWhile_cons_of_neg hx,
        List.dropWhile_cons_of_neg hx]
      rfl

theorem takeWhile_append_of_all {p : Char → Bool} {A B : List Char}
    (h : ∀ c ∈ A, p c = true) : (A ++ B).takeWhile p = A ++ B.takeWhile p := by
  induction A with
  | nil => simp
  | cons x xs ih =>
    have hx : p x = true := h x (by simp)
    rw [List.cons_append, List.takeWhile_cons_of_pos hx,
      ih (fun c hc => h c (by simp [hc])), List.cons_append]

theorem dropWhile_append_of_all {p : Char → Bool} {A B : List Char}
    (h : ∀ c ∈ A, p c = true) : (A ++ B).dropWhile p = B.dropWhile p := by
  induction A with
  | nil => simp
  | cons x xs ih =>
    have hx : p x = true := h x (by simp)
    rw [List.cons_append, List.dropWhile_cons_of_pos hx,
      ih (fun c hc => h c (by simp [hc]))]

theorem dropWhile_eq_self_of_head {p : Char → Bool} {c : Char} {t : List Char}
    (h : p c = false) : (c :: t).dropWhile p = c :: t :=
  List.dropWhile_cons_of_neg (by simp [h])

theorem stripLeft_no_sat {p : Char → Bool} {l : List Char}
    (h : ∀ c ∈ l, p c = false) : stripLeft p l = l := by
  cases l with
  | nil => rfl
  | cons c t => exact dropWhile_eq_self_of_head (h c (by simp))

theorem stripRight_no_sat {p : Char → Bool} {l : List Char}
    (h : ∀ c ∈ l, p c = false) : stripRight p l = l := by
  unfold stripRight
  have h₁ : List.dropWhile p l.reverse = l.reverse :=
    stripLeft_no_sat (fun c hc => h c (List.mem_reverse.mp hc))
  rw [h₁]
  exact l.reverse_reverse

theorem stripRight_append_ne_nil {p : Char → Bool} {A B : List Char}
    (h : stripRight p B ≠ []) : stripRight p (A ++ B) = A ++ stripRight p B := by
  unfold stripRight at h ⊢
  have hne : B.reverse.dropWhile p ≠ [] := by
    intro hcon
    rw [hcon] at h
    simp at h
  rw [List.reverse_append, dropWhile_append_of_ne_nil hne, List.reverse_append,
    List.reverse_reverse]

theorem stripRight_append_sat {p : Char → Bool} {A B : List Char}
    (h : ∀ c ∈ B, p c = true) : stripRight p (A ++ B) = stripRight p A := by
  unfold stripRight
  rw [List.reverse_append,
    dropWhile_append_of_all (fun c hc => h c (List.mem_reverse.mp hc))]

theorem isSlugChar_ne_hyphen {c : Char} (h : isSlugChar c = true) : (c = '-') = False := by
  simp only [eq_iff_iff, iff_false]
  intro hc
  subst hc
  simp [isSlugChar] at h

theorem stripHyphens_no_hyphen {l : List Char} (h : ∀ c ∈ l, isSlugChar c = true) :
    stripHyphens l = l := by
  unfold stripHyphens
  rw [stripLeft_no_sat (fun c hc => by simp [isSlugChar_ne_hyphen (h c hc)]),
    stripRight_no_sat (fun c hc => by simp [isSlugChar_ne_hyphen (h c hc)])]

/-- One step of `collapseFrom` at a slug character. -/
theorem collapseFrom_cons_slug {c : Char} (hc : isSlugChar c = true)
    (b : Bool) (t : List Char) : collapseFrom b (c :: t) = c :: collapseFrom false t := by
  cases b <;> simp [collapseFrom, hc]

/-- One step of `collapseFrom` at a separator character, fresh run. -/
theorem collapseFrom_cons_nonslug_false {c : Char} (hc : isSlugChar c = false)
    (t : List Char) : collapseFrom false (c :: t) = '-' :: collapseFrom true t := by
  simp [collapseFrom, hc]

/-- One step of `collapseFrom` at a separator character, continuing run. -/
theorem collapseFrom_cons_nonslug_true {c : Char} (hc : isSlugChar c = false)
    (t : List Char) : collapseFrom true (c :: t) = collapseFrom true t := by
  simp [collapseFrom, hc]

/-- `collapseFrom` maps a leading run of slug characters through
unchanged. -/
theorem collapseFrom_slugrun {r : List Char} (hne : r ≠ [])
    (hall : ∀ c ∈ r, isSlugChar c = true) (b : Bool) (t : List Char) :
    collapseFrom b (r ++ t) = r ++ collapseFrom false t := by
  induction r generalizing b with
  | nil => exact absurd rfl hne
  | cons c r ih =>
    have hc : isSlugChar c = true := hall c (by simp)
    cases r with
    | nil =>
      rw [List.cons_append, List.nil_append, collapseFrom_cons_slug hc]
      rfl
    | cons c₁ r₁ =>
      rw [List.cons_append, collapseFrom_cons_slug hc,
        ih (by simp) (fun d hd => hall d (by simp [List.mem_cons.mp hd])) false]
      simp

/-- Inside a separator run `collapseFrom true` drops the run. -/
theorem collapseFrom_true_seprun {sep : List Char}
    (hall : ∀ c ∈ sep, isSlugChar c = false) (t : List Char) :
    collapseFrom true (sep ++ t) = collapseFrom true t := by
  induction sep with
  | nil => simp
  | cons c r ih =>
    have hc : isSlugChar c = false := hall c (by simp)
    rw [List.cons_append, collapseFrom_cons_nonslug_true hc]
    exact ih (fun d hd => hall d (by simp [hd]))

/-- A fresh separator run collapses to one hyphen. -/
theorem collapseFrom_false_seprun {sep : List Char} (hne : sep ≠ [])
    (hall : ∀ c ∈ sep, isSlugChar c = false) (t : List Char) :
    collapseFrom false (sep ++ t) = '-' :: collapseFrom true t := by
  cases sep with
  | nil => exact absurd rfl hne
  | cons c r =>
    have hc : isSlugChar c = false := hall c (by simp)
    rw [List.cons_append, collapseFrom_cons_nonslug_false hc,
      collapseFrom_true_seprun (fun d hd => hall d (by simp [hd]))]

theorem segs_nil : segs [] = [] := by
  rw [segs]

theorem segs_cons_slug {c : Char} (hc : isSlugChar c = true) (rest : List Char) :
    segs (c :: rest) =
      (c :: rest.takeWhile isSlugChar) :: segs (rest.dropWhile isSlugChar) := by
  rw [segs, if_pos hc]

theorem segs_cons_nonslug {c : Char} (hc : isSlugChar c = false) (rest : List Char) :
    segs (c :: rest) = segs (rest.dropWhile (fun d => !isSlugChar d)) := by
  rw [segs, if_neg (by simp [hc])]

theorem segs_dropWhile_nonslug (t : List Char) :
    segs (t.dropWhile (fun d => !isSlugChar d)) = segs t := by
  induction t with
  | nil => rfl
  | cons c rest ih =>
    by_cases hc : isSlugChar c
    · rw [List.dropWhile_cons_of_neg (by simp [hc])]
    · rw [List.dropWhile_cons_of_pos (by simp [hc]),
        segs_cons_nonslug (by simpa using hc)]

theorem segs_nonslug_prefix {pre : List Char}
    (h : ∀ c ∈ pre, isSlugChar c = false) (l : List Char) :
    segs (pre ++ l) = segs l := by
  induction pre with
  | nil => simp
  | cons c rest ih =>
    have hc : isSlugChar c = false := h c (by simp)
    rw [List.cons_append, segs_cons_nonslug hc, segs_dropWhile_nonslug]
    exact ih (fun d hd => h d (by simp [hd]))

/-- A string of separator characters only has no runs. -/
theorem segs_all_nonslug {l : List Char} (h : ∀ c ∈ l, isSlugChar c = false) :
    segs l = [] := by
  have := segs_nonslug_prefix h []
  rw [List.append_nil, segs_nil] at this
  exact this

theorem takeWhile_nil_of_all_neg {p : Char → Bool} {l : List Char}
    (h : ∀ c ∈ l, p c = false) : l.takeWhile p = [] := by
  cases l with
  | nil => rfl
  | cons c t => exact List.takeWhile_cons_of_neg (by simp [h c (by simp)])

theorem dropWhile_all_neg {p : Char → Bool} {l : List Char}
    (h : ∀ c ∈ l, p c = false) : l.dropWhile p = l := by
  cases l with
  | nil => rfl
  | cons c t => exact dropWhile_eq_self_of_head (h c (by simp))

theorem segs_nonslug_suffix {suf : List Char}
    (hsuf : ∀ c ∈ suf, isSlugChar c = false) (l : List Char) :
    segs (l ++ suf) = segs l := by
  have main : ∀ n (l : List Char), l.length ≤ n → segs (l ++ suf) = segs l := by
    intro n
    induction n with
    | zero =>
      intro l hl
      rw [List.length_eq_zero.mp (Nat.le_zero.mp hl), List.nil_append,
        segs_all_nonslug hsuf, segs_nil]
    | succ n ihn =>
      intro l hl
      cases l with
      | nil =>
        rw [List.nil_append, segs_all_nonslug hsuf, segs_nil]
      | cons c rest =>
        by_cases hc : isSlugChar c
        · -- leading slug run: both sides expose the same first run
          have hdrop : (rest.dropWhile isSlugChar).length ≤ n := by
            have := (List.dropWhile_sublist (l := rest) isSlugChar).length_le
            simpa using Nat.le_trans this (Nat.le_of_succ_le_succ hl)
          rw [List.cons_append, segs_cons_slug hc, segs_cons_slug hc]
          have htake : (rest ++ suf).takeWhile isSlugChar =
              rest.takeWhile isSlugChar ++
                ((rest.dropWhile isSlugChar ++ suf).takeWhile isSlugChar) := by
            conv_lhs => rw [← List.takeWhile_append_dropWhile (p := isSlugChar) (l := rest)]
            rw [List.append_assoc]
            exact takeWhile_append_of_all (fun d hd => mem_takeWhile_sat hd)
          have hdropapp : (rest ++ suf).dropWhile isSlugChar =
              (rest.dropWhile isSlugChar ++ suf).dropWhile isSlugChar := by
            conv_lhs => rw [← List.takeWhile_append_dropWhile (p := isSlugChar) (l := rest)]
            rw [List.append_assoc]
            exact dropWhile_append_of_all (fun d hd => mem_takeWhile_sat hd)
          cases hu : rest.dropWhile isSlugChar with
          | nil =>
            rw [htake, hdropapp, hu, List.nil_append,
              takeWhile_nil_of_all_neg hsuf, List.append_nil,
              dropWhile_all_neg hsuf, segs_all_nonslug hsuf, segs_nil]
          | cons d u =>
            have hd : isSlugChar d = false := by
              have := dropWhile_head_false hu
              exact this
            rw [htake, hdropapp, hu, List.cons_append,
              List.takeWhile_cons_of_neg (by simp [hd]), List.append_nil,
              dropWhile_eq_self_of_head (by simp [hd]), ← List.cons_append, ← hu,
              ihn _ hdrop]
        · have hcf : isSlugChar c = false := by simpa using hc
          rw [List.cons_append, segs_cons_nonslug hcf, segs_cons_nonslug hcf,
            segs_dropWhile_nonslug, segs_dropWhile_nonslug]
          exact ihn rest (Nat.le_of_succ_le_succ hl)
  exact main l.length l le_rfl

/-- The runs produced by `segs` are never empty. -/
theorem segs_ne_nil {l : List Char} {s : List Char} (hs : s ∈ segs l) : s ≠ [] := by
  have main : ∀ n (l : List Char), l.length ≤ n → ∀ s ∈ segs l, s ≠ [] := by
    intro n
    induction n with
    | zero =>
      intro l hl
      rw [List.length_eq_zero.mp (Nat.le_zero.mp hl)]
      intro s hs
      simp [segs_nil] at hs
    | succ n ihn =>
      intro l hl s hs
      cases l with
      | nil => simp [segs_nil] at hs
      | cons c rest =>
        by_cases hc : isSlugChar c
        · rw [segs_cons_slug hc] at hs
          rcases List.mem_cons.mp hs with rfl | h₁
          · simp
          · exact ihn (rest.dropWhile isSlugChar)
              (Nat.le_trans
                (by simpa using (List.dropWhile_sublist (l := rest) isSlugChar).length_le)
                (Nat.le_of_succ_le_succ hl)) s h₁
        · rw [segs_cons_nonslug (by simpa using hc)] at hs
          exact ihn (rest.dropWhile (fun d => !isSlugChar d))
            (Nat.le_trans
              (by simpa using
                (List.dropWhile_sublist (l := rest) (fun d => !isSlugChar d)).length_le)
              (Nat.le_of_succ_le_succ hl)) s hs
  exact main l.length l le_rfl s hs

theorem joinSegs_ne_nil {ss : List (List Char)} {s₀ : List Char}
    (hne : ∀ s ∈ s₀ :: ss, s ≠ []) : joinSegs (s₀ :: ss) ≠ [] := by
  cases ss with
  | nil =>
    simpa [joinSegs] using hne s₀ (by simp)
  | cons s₁ t =>
    have := hne s₀ (by simp)
    cases hs : s₀ with
    | nil => exact absurd hs this
    | cons a b => simp [joinSegs]

/-- The collapse-then-strip pipeline of `slugify` joins the maximal slug
runs with single hyphens. -/
theorem stripHyphens_collapseFrom (l : List Char) :
    stripHyphens (collapseFrom false l) = joinSegs (segs l) := by
  have main : ∀ n (l : List Char), l.length ≤ n →
      stripHyphens (collapseFrom false l) = joinSegs (segs l) := by
    intro n
    induction n with
    | zero =>
      intro l hl
      rw [List.length_eq_zero.mp (Nat.le_zero.mp hl), segs_nil]
      rfl
    | succ n ihn =>
      intro l hl
      cases l with
      | nil =>
        rw [segs_nil]
        rfl
      | cons c rest =>
        by_cases hc : isSlugChar c
        · -- leading slug run
          set r : List Char := c :: rest.takeWhile isSlugChar with hr
          set t : List Char := rest.dropWhile isSlugChar with ht
          have hsplit : c :: rest = r ++ t := by
            rw [hr, ht, List.cons_append, List.takeWhile_append_dropWhile]
          have hrall : ∀ d ∈ r, isSlugChar d = true := by
            intro d hd
            rcases List.mem_cons.mp hd with rfl | h₁
            · exact hc
            · exact mem_takeWhile_sat h₁
          have hcollapse : collapseFrom false (c :: rest) = r ++ collapseFrom false t := by
            rw [hsplit]
            exact collapseFrom_slugrun (by simp [hr]) hrall false t
          have hsegs : segs (c :: rest) = r :: segs t := segs_cons_slug hc rest
          cases htt : t with
          | nil =>
            rw [hcollapse, hsegs, htt, segs_nil]
            rw [show collapseFrom false ([] : List Char) = [] from rfl, List.append_nil]
            rw [stripHyphens_no_hyphen hrall]
            simp [joinSegs]
          | cons d t₁ =>
            have hd : isSlugChar d = false := dropWhile_head_false (ht ▸ htt)
            -- separator run at the head of t
            have hsep : t.takeWhile (fun x => !isSlugChar x) =
                d :: t₁.takeWhile (fun x => !isSlugChar x) := by
              rw [htt, List.takeWhile_cons_of_pos (by simp [hd])]
            have hu : t.dropWhile (fun x => !isSlugChar x) =
                t₁.dropWhile (fun x => !isSlugChar x) := by
              rw [htt, List.dropWhile_cons_of_pos (by simp [hd])]
            set u : List Char := t.dropWhile (fun x => !isSlugChar x) with hudef
            have htsplit : t = t.takeWhile (fun x => !isSlugChar x) ++ u := by
              rw [hudef, List.takeWhile_append_dropWhile]
            have hsepall : ∀ x ∈ t.takeWhile (fun x => !isSlugChar x), isSlugChar x = false := by
              intro x hx
              simpa using mem_takeWhile_sat hx
            have hcolt : collapseFrom false t = '-' :: collapseFrom true u := by
              conv_lhs => rw [htsplit]
              exact collapseFrom_false_seprun (by rw [hsep]; simp) hsepall u
            have hsegt : segs t = segs u := by
              rw [htt, segs_cons_nonslug hd, ← hu]
            have hulen : u.length ≤ n := by
              have h₁ : u.length ≤ t₁.length := by
                rw [hudef, htt, List.dropWhile_cons_of_pos (by simp [hd])]
                exact (List.dropWhile_sublist (fun x => !isSlugChar x)).length_le
              have h₂ : t.length ≤ rest.length :=
                ht ▸ (List.dropWhile_sublist isSlugChar).length_le
              have h₃ : t₁.length + 1 = t.length := by rw [htt]; rfl
              have h₄ : rest.length + 1 ≤ n + 1 := by simpa using hl
              omega
            cases huu : u with
            | nil =>
              rw [hcollapse, hcolt, huu, hsegs, hsegt, huu, segs_nil]
              rw [show collapseFrom true ([] : List Char) = [] from rfl]
              unfold stripHyphens
              have hnostrip : stripLeft (fun x => x = '-') (r ++ ['-']) = r ++ ['-'] := by
                rw [hr, List.cons_append]
                exact dropWhile_eq_self_of_head (by simp [isSlugChar_ne_hyphen hc])
              rw [hnostrip, stripRight_append_sat (by simp),
                stripRight_no_sat (fun x hx => by simp [isSlugChar_ne_hyphen (hrall x hx)])]
              simp [joinSegs]
            | cons e u₁ =>
              have he : isSlugChar e = true := by
                have := dropWhile_head_false (hudef ▸ huu)
                simpa using this
              have hflag : collapseFrom true u = collapseFrom false u := by
                rw [huu, collapseFrom_cons_slug he, collapseFrom_cons_slug he]
              have hX : collapseFrom false u = e :: collapseFrom false u₁ := by
                rw [huu, collapseFrom_cons_slug he]
              have hih := ihn u hulen
              have hXleft : stripLeft (fun x => x = '-') (collapseFrom false u) =
                  collapseFrom false u := by
                rw [hX]
                exact dropWhile_eq_self_of_head (by simp [isSlugChar_ne_hyphen he])
              have hXstrip : stripRight (fun x => x = '-') (collapseFrom false u) =
                  joinSegs (segs u) := by
                have := hih
                unfold stripHyphens at this
                rw [hXleft] at this
                exact this
              have hsegu : segs u = (e :: u₁.takeWhile isSlugChar) :: segs (u₁.dropWhile isSlugChar) := by
                rw [huu, segs_cons_slug he]
              have hjoin_ne : joinSegs (segs u) ≠ [] := by
                rw [hsegu]
                exact joinSegs_ne_nil (fun s hs => segs_ne_nil (hsegu ▸ hs))
              rw [hcollapse, hcolt, hflag, hsegs, hsegt]
              unfold stripHyphens
              have hleft : stripLeft (fun x => x = '-') (r ++ '-' :: collapseFrom false u) =
                  r ++ '-' :: collapseFrom false u := by
                rw [hr, List.cons_append]
                exact dropWhile_eq_self_of_head (by simp [isSlugChar_ne_hyphen hc])
              rw [hleft]
              have hassoc : r ++ '-' :: collapseFrom false u =
                  (r ++ ['-']) ++ collapseFrom false u := by
                simp
              rw [hassoc, stripRight_append_ne_nil (by rw [hXstrip]; exact hjoin_ne),
                hXstrip]
              rw [hsegu]
              simp [joinSegs]
        · -- leading separator run
          have hcf : isSlugChar c = false := by simpa using hc
          set u : List Char := rest.dropWhile (fun x => !isSlugChar x) with hudef
          have hsegsl : segs (c :: rest) = segs u := segs_cons_nonslug hcf rest
          have hsplit : c :: rest =
              (c :: rest.takeWhile (fun x => !isSlugChar x)) ++ u := by
            rw [hudef, List.cons_append, List.takeWhile_append_dropWhile]
          have hsepall : ∀ x ∈ c :: rest.takeWhile (fun x => !isSlugChar x),
              isSlugChar x = false := by
            intro x hx
            rcases List.mem_cons.mp hx with rfl | h₁
            · exact hcf
            · simpa using mem_takeWhile_sat h₁
          have hcol : collapseFrom false (c :: rest) = '-' :: collapseFrom true u := by
            conv_lhs => rw [hsplit]
            exact collapseFrom_false_seprun (by simp) hsepall u
          have hulen : u.length ≤ n := by
            have h₁ : u.length ≤ rest.length :=
              hudef ▸ (List.dropWhile_sublist (fun x => !isSlugChar x)).length_le
            have h₂ : rest.length + 1 ≤ n + 1 := by simpa using hl
            omega
          cases huu : u with
          | nil =>
            rw [hcol, hsegsl, huu, segs_nil]
            rw [show collapseFrom true ([] : List Char) = [] from rfl]
            rfl
          | cons e u₁ =>
            have he : isSlugChar e = true := by
              have := dropWhile_head_false (hudef ▸ huu)
              simpa using this
            have hflag : collapseFrom true u = collapseFrom false u := by
              rw [huu, collapseFrom_cons_slug he, collapseFrom_cons_slug he]
            have hX : collapseFrom false u = e :: collapseFrom false u₁ := by
              rw [huu, collapseFrom_cons_slug he]
            have hih := ihn u hulen
            rw [hcol, hflag, hsegsl]
            unfold stripHyphens at hih ⊢
            have hXleft : stripLeft (fun x => x = '-') (collapseFrom false u) =
                collapseFrom false u := by
              rw [hX]
              exact dropWhile_eq_self_of_head (by simp [isSlugChar_ne_hyphen he])
            rw [hXleft] at hih
            have hdropstep : stripLeft (fun x => x = '-') ('-' :: collapseFrom false u) =
                stripLeft (fun x => x = '-') (collapseFrom false u) := by
              exact List.dropWhile_cons_of_pos (by simp)
            rw [hdropstep, hXleft, hih]
  exact main l.length l le_rfl

/-- Whitespace characters are unchanged by `Char.toLower`. -/
theorem toLower_of_ws {c : Char} (h : c.isWhitespace = true) : c.toLower = c := by
  have h₁ : ((c = ' ' ∨ c = '\t') ∨ c = '\r') ∨ c = '\n' := by
    simpa [Char.isWhitespace] using h
  rcases h₁ with ((rfl | rfl) | rfl) | rfl <;> decide

/-- Whitespace characters are not slug characters. -/
theorem ws_not_slug {c : Char} (h : c.isWhitespace = true) : isSlugChar c = false := by
  have h₁ : ((c = ' ' ∨ c = '\t') ∨ c = '\r') ∨ c = '\n' := by
    simpa [Char.isWhitespace] using h
  rcases h₁ with ((rfl | rfl) | rfl) | rfl <;> decide

/-- Stripping surrounding whitespace before lower-casing does not change the
skeleton. -/
theorem segs_map_lower_pyStrip (l : List Char) :
    segs ((pyStrip l).map Char.toLower) = segs (l.map Char.toLower) := by
  set B : List Char := stripLeft Char.isWhitespace l with hB
  have hsplitl : l = l.takeWhile Char.isWhitespace ++ B := by
    rw [hB]
    exact (List.takeWhile_append_dropWhile (p := Char.isWhitespace) (l := l)).symm
  have hpre : ∀ c ∈ (l.takeWhile Char.isWhitespace).map Char.toLower,
      isSlugChar c = false := by
    intro c hc
    rcases List.mem_map.mp hc with ⟨d, hd, rfl⟩
    have hw := mem_takeWhile_sat hd
    rw [toLower_of_ws hw]
    exact ws_not_slug hw
  have step₁ : segs (l.map Char.toLower) = segs (B.map Char.toLower) := by
    conv_lhs => rw [hsplitl]
    rw [List.map_append]
    exact segs_nonslug_prefix hpre _
  have hsplitB : B = stripRight Char.isWhitespace B ++
      (B.reverse.takeWhile Char.isWhitespace).reverse := by
    conv_lhs => rw [← B.reverse_reverse]
    conv_lhs =>
      rw [← List.takeWhile_append_dropWhile (p := Char.isWhitespace) (l := B.reverse)]
    rw [List.reverse_append]
    rfl
  have hsuf : ∀ c ∈ ((B.reverse.takeWhile Char.isWhitespace).reverse).map Char.toLower,
      isSlugChar c = false := by
    intro c hc
    rcases List.mem_map.mp hc with ⟨d, hd, rfl⟩
    have hw := mem_takeWhile_sat (List.mem_reverse.mp hd)
    rw [toLower_of_ws hw]
    exact ws_not_slug hw
  have step₂ : segs (B.map Char.toLower) =
      segs ((stripRight Char.isWhitespace B).map Char.toLower) := by
    conv_lhs => rw [hsplitB]
    rw [List.map_append]
    exact segs_nonslug_suffix hsuf _
  rw [step₁, step₂]
  rfl

/-- The characterisation of `slugify`: the hyphen-join of the label
skeleton, or the reserved fallback when the skeleton is empty. -/
theorem slugify_eq_skeleton (v : String) :
    slugify v = if labelSkeleton v = [] then "unknown-store"
      else String.mk (joinSegs (labelSkeleton v)) := by
  have hdef : slugify v =
      (if (stripHyphens (collapseFrom false ((pyStrip v.data).map Char.toLower))).isEmpty
        then "unknown-store"
        else String.mk (stripHyphens (collapseFrom false ((pyStrip v.data).map Char.toLower)))) :=
    rfl
  have hcore : stripHyphens (collapseFrom false ((pyStrip v.data).map Char.toLower)) =
      joinSegs (labelSkeleton v) := by
    rw [stripHyphens_collapseFrom, segs_map_lower_pyStrip]
    rfl
  rw [hdef, hcore]
  by_cases hsk : labelSkeleton v = []
  · rw [if_pos hsk, hsk]
    simp [joinSegs]
  · rw [if_neg hsk]
    cases hs : labelSkeleton v with
    | nil => exact absurd hs hsk
    | cons s₀ ss =>
      have hne : joinSegs (s₀ :: ss) ≠ [] := by
        refine joinSegs_ne_nil (fun s hmem => ?_)
        have : s ∈ segs (v.data.map Char.toLower) := by
          have : labelSkeleton v = s₀ :: ss := hs
          unfold labelSkeleton at this
          rw [this]
          exact hmem
        exact segs_ne_nil this
      rw [if_neg (by simpa [List.isEmpty_iff] using hne)]

/-- Two labels with equal skeletons slugify identically: case changes and
the choice of whitespace or punctuation separators are immaterial. -/
theorem slugify_skeleton_invariant {s₁ s₂ : String}
    (h : labelSkeleton s₁ = labelSkeleton s₂) : slugify s₁ = slugify s₂ := by
  rw [slugify_eq_skeleton, slugify_eq_skeleton, h]

/-! ### The history-builder fold invariant -/

theorem processItem_preserves {selected : List FsEntry} {stores : Stores}
    {d stem : String} {item : RawItem}
    (hobs : observedIn selected (normalize_store_slug item stem) (make_item_key item) d)
    (hInv : StoresInv selected stores) :
    StoresInv selected (processItem d stem stores item) := by
  intro sb hsb ke hke dobs hdobs
  simp only [processItem] at hsb
  rcases AList.mem_set hsb with rfl | hold
  · -- the updated store bucket
    simp only at hke
    rcases AList.mem_set hke with rfl | holdk
    · -- the updated entry
      simp only [updateEntry] at hdobs
      rcases AList.mem_set hdobs with rfl | holdd
      · exact ⟨rfl, rfl, hobs⟩
      · -- an old observation of entry₀
        cases hfindB : AList.find stores (normalize_store_slug item stem) with
        | none =>
          rw [hfindB] at holdd
          simp only [Option.getD] at holdd
          cases hfindE : AList.find ([] : List (String × EntryAcc)) (make_item_key item) with
          | none =>
            rw [hfindE] at holdd
            simp [initEntry, AList.find] at hfindE holdd
          | some e => simp [AList.find] at hfindE
        | some b =>
          rw [hfindB] at holdd
          simp only [Option.getD] at holdd
          cases hfindE : AList.find b (make_item_key item) with
          | none =>
            rw [hfindE] at holdd
            simp [initEntry] at holdd
          | some e =>
            rw [hfindE] at holdd
            exact hInv _ (AList.find_mem hfindB) _ (AList.find_mem hfindE) dobs holdd
    · -- an untouched entry of the found bucket
      cases hfindB : AList.find stores (normalize_store_slug item stem) with
      | none =>
        rw [hfindB] at holdk
        simp at holdk
      | some b =>
        rw [hfindB] at holdk
        simp only [Option.getD] at holdk
        exact hInv _ (AList.find_mem hfindB) _ holdk dobs hdobs
  · exact hInv sb hold ke hke dobs hdobs

theorem processFile_preserves {selected : List FsEntry} {stores : Stores}
    {dir : FsEntry} {f : String × JsonDoc}
    (hdir : dir ∈ selected) (hf : f ∈ filesOf dir)
    (hInv : StoresInv selected stores) :
    StoresInv selected (processFile dir.name stores f) := by
  unfold processFile
  by_cases hw : f.1 = "walmart_all.json"
  · rw [if_pos hw]
    exact hInv
  · rw [if_neg hw]
    refine foldl_inv (load_items f.2) stores (fun st it hit hst => ?_) hInv
    refine processItem_preserves ?_ hst
    exact ⟨dir, hdir, rfl, f, hf, hw, it, hit, rfl, rfl⟩

theorem processDate_preserves {selected : List FsEntry} {stores : Stores}
    {dir : FsEntry} (hdir : dir ∈ selected) (hInv : StoresInv selected stores) :
    StoresInv selected (processDate stores dir) := by
  unfold processDate
  exact foldl_inv (filesOf dir) stores
    (fun st f hf hst => processFile_preserves hdir hf hst) hInv

theorem foldAll_inv (selected : List FsEntry) :
    StoresInv selected (selected.foldl processDate []) := by
  refine foldl_inv selected [] (fun st dir hdir hst => processDate_preserves hdir hst) ?_
  intro sb hsb
  simp at hsb

/-! ### Finalisation lemmas -/

/-- Every binding of the gap-filled history map is either an original
observation or the synthesized absent observation of its date. -/
theorem fillMissing_mem {ds : List String} {h : List (String × DayObs)}
    {dobs : String × DayObs} (hmem : dobs ∈ fillMissing ds h) :
    dobs ∈ h ∨ dobs.2 = { date := dobs.1, price := none, in_stock := false, present := false } := by
  unfold fillMissing at hmem
  refine foldl_inv (P := fun h₁ => ∀ x ∈ h₁,
      x ∈ h ∨ x.2 = { date := x.1, price := none, in_stock := false, present := false })
    ds h ?_ (fun x hx => Or.inl hx) dobs hmem
  intro h₁ d hd hP x hx
  by_cases hfind : (AList.find h₁ d).isSome
  · rw [if_pos hfind] at hx
    exact hP x hx
  · rw [if_neg hfind] at hx
    rcases AList.mem_set hx with rfl | hold
    · exact Or.inr rfl
    · exact hP x hold

/-- The finalized entry of an invariant-satisfying accumulated entry. -/
theorem finalizeEntry_spec {selected : List FsEntry} {slug key : String}
    {e : EntryAcc}
    (hInvE : ∀ dobs ∈ e.history, dobs.2.date = dobs.1 ∧ dobs.2.present = true ∧
      observedIn selected slug key dobs.1) (ds : List String) :
    (finalizeEntry ds e).history.map (fun o => o.date) = ds ∧
    (∀ obs ∈ (finalizeEntry ds e).history,
      (obs.present = true → observedIn selected slug key obs.date) ∧
      (obs.present = false →
        obs = { date := obs.date, price := none, in_stock := false, present := false })) := by
  have hfind : ∀ d obs, AList.find (fillMissing ds e.history) d = some obs →
      obs.date = d ∧ (obs.present = true → observedIn selected slug key d) ∧
      (obs.present = false →
        obs = { date := obs.date, price := none, in_stock := false, present := false }) := by
    intro d obs hf
    rcases fillMissing_mem (AList.find_mem hf) with hold | hnew
    · obtain ⟨h₁, h₂, h₃⟩ := hInvE (d, obs) hold
      refine ⟨h₁, fun _ => ?_, fun hp => ?_⟩
      · exact h₃
      · rw [h₂] at hp
        cases hp
    · simp only at hnew
      refine ⟨by rw [hnew], fun hp => ?_, fun _ => by rw [hnew]⟩
      rw [hnew] at hp
      cases hp
  have hmap : ∀ (l : List String) (g : String → String), (∀ d ∈ l, g d = d) → l.map g = l := by
    intro l g h
    induction l with
    | nil => rfl
    | cons x xs ih =>
      rw [List.map_cons, h x (by simp), ih (fun d hd => h d (by simp [hd]))]
  constructor
  · show (ds.map fun d =>
        (AList.find (fillMissing ds e.history) d).getD
          { date := d, price := none, in_stock := false, present := false }).map
        (fun o => o.date) = ds
    rw [List.map_map]
    refine hmap ds _ (fun d hd => ?_)
    cases hf : AList.find (fillMissing ds e.history) d with
    | none => simp only [Function.comp, hf, Option.getD]
    | some obs =>
      simp only [Function.comp, hf, Option.getD]
      exact (hfind d obs hf).1
  · intro obs hobs
    have hobs' : obs ∈ ds.map fun d =>
        (AList.find (fillMissing ds e.history) d).getD
          { date := d, price := none, in_stock := false, present := false } := hobs
    rcases List.mem_map.mp hobs' with ⟨d, hd, hval⟩
    cases hf : AList.find (fillMissing ds e.history) d with
    | none =>
      rw [hf] at hval
      simp only [Option.getD] at hval
      constructor
      · intro hp
        rw [← hval] at hp
        cases hp
      · intro _
        rw [← hval]
    | some o =>
      rw [hf] at hval
      simp only [Option.getD] at hval
      obtain ⟨hdate, hobsv, habs⟩ := hfind d o hf
      subst hval
      exact ⟨fun hp => hdate ▸ hobsv hp, habs⟩

/-! ### Unfolding and origin of `build_history` output -/

theorem build_history_eq (fs : Fs) (days : Int) (uAt : String) :
    build_history fs days uAt =
      if (iter_snapshot_dates fs).isEmpty then some ([], "")
      else
        match (selectedDates fs days).getLast? with
        | none => none
        | some today =>
          some ((((selectedDirs fs days).foldl processDate []).map (fun sb =>
            (sb.1,
              { store_slug := sb.1, updated_at := uAt,
                items := sb.2.map
                  (fun ke => (ke.1, finalizeEntry (selectedDates fs days) ke.2)) }))),
            today) := rfl

/-- Every entry of the history output is the finalisation of an accumulated
entry whose observations are all real, present and correctly dated. -/
theorem build_history_mem {fs : Fs} {days : Int} {uAt : String} {out : HistOut}
    {today slug : String} {store : StoreOut} {key : String} {entry : HistoryEntry}
    (h : build_history fs days uAt = some (out, today))
    (hs : (slug, store) ∈ out) (hk : (key, entry) ∈ store.items) :
    ∃ e : EntryAcc, entry = finalizeEntry (selectedDates fs days) e ∧
      ∀ dobs ∈ e.history, dobs.2.date = dobs.1 ∧ dobs.2.present = true ∧
        observedIn (selectedDirs fs days) slug key dobs.1 := by
  rw [build_history_eq] at h
  by_cases hempty : (iter_snapshot_dates fs).isEmpty
  · rw [if_pos hempty] at h
    have h₁ := Option.some.inj h
    simp only [Prod.mk.injEq] at h₁
    obtain ⟨hout, -⟩ := h₁
    rw [← hout] at hs
    simp at hs
  · rw [if_neg hempty] at h
    cases hlast : (selectedDates fs days).getLast? with
    | none =>
      rw [hlast] at h
      cases h
    | some t =>
      rw [hlast] at h
      have h₁ := Option.some.inj h
      simp only [Prod.mk.injEq] at h₁
      obtain ⟨hout, -⟩ := h₁
      rw [← hout] at hs
      rcases List.mem_map.mp hs with ⟨sb, hsb, hval⟩
      simp only [Prod.mk.injEq] at hval
      obtain ⟨hslug, hstore⟩ := hval
      have hk₁ : (key, entry) ∈
          sb.2.map (fun ke => (ke.1, finalizeEntry (selectedDates fs days) ke.2)) := by
        rw [← hstore] at hk
        exact hk
      rcases List.mem_map.mp hk₁ with ⟨ke, hke, hkval⟩
      simp only [Prod.mk.injEq] at hkval
      obtain ⟨hkey, hentry⟩ := hkval
      refine ⟨ke.2, hentry.symm, fun dobs hdobs => ?_⟩
      have hi := foldAll_inv (selectedDirs fs days) sb hsb ke hke dobs hdobs
      rw [hslug, hkey] at hi
      exact hi

/-! ### The selected dates are sorted ascending -/

theorem charListLt_iff (as bs : List Char) :
    charListLt as bs = true ↔ List.Lex (· < ·) as bs := by
  induction as generalizing bs with
  | nil =>
    cases bs with
    | nil =>
      simp only [charListLt]
      constructor
      · intro h; cases h
      · intro h; cases h
    | cons b t =>
      simp only [charListLt]
      constructor
      · intro _; exact List.Lex.nil
      · intro _; trivial
  | cons a as ih =>
    cases bs with
    | nil =>
      simp only [charListLt]
      constructor
      · intro h; cases h
      · intro h; cases h
    | cons b bs =>
      have hlt : (a < b) ↔ a.toNat < b.toNat := Iff.rfl
      by_cases hab : a.toNat < b.toNat
      · simp only [charListLt, if_pos hab]
        constructor
        · intro _; exact List.Lex.rel (hlt.mpr hab)
        · intro _; trivial
      · by_cases hba : b.toNat < a.toNat
        · simp only [charListLt, if_neg hab, if_pos hba]
          constructor
          · intro h; cases h
          · intro h
            cases h with
            | cons h₁ => exact absurd hba (by omega)
            | rel h₁ => exact absurd (hlt.mp h₁) hab
        · have heq : a = b := by
            have h₁ : a.toNat = b.toNat := by omega
            have h₂ : a.val = b.val := UInt32.ext h₁
            exact Char.ext h₂
          subst heq
          simp only [charListLt, if_neg hab, if_neg hba]
          constructor
          · intro h
            exact List.Lex.cons ((ih bs).mp h)
          · intro h
            cases h with
            | cons h₁ => exact (ih bs).mpr h₁
            | rel h₁ => exact absurd (hlt.mp h₁) hab

theorem strLt_iff (a b : String) : strLt a b = true ↔ a < b := by
  rw [String.lt_iff_toList_lt]
  show charListLt a.data b.data = true ↔ a.toList < b.toList
  exact (charListLt_iff a.data b.data).trans Iff.rfl

theorem strLt_false_iff (a b : String) : strLt a b = false ↔ b ≤ a := by
  constructor
  · intro h
    have : ¬ (a < b) := by
      intro hlt
      rw [(strLt_iff a b).mpr hlt] at h
      cases h
    exact not_lt.mp this
  · intro h
    by_cases hb : strLt a b = true
    · exact absurd ((strLt_iff a b).mp hb) (not_lt.mpr h)
    · simpa using hb

theorem iter_snapshot_dates_pairwise (fs : Fs) :
    (iter_snapshot_dates fs).Pairwise (fun a b => a.name ≤ b.name) := by
  unfold iter_snapshot_dates
  cases fs.snapshots with
  | none => simp
  | some entries =>
    have h := sortByLt_pairwise (fun a b : FsEntry => strLt a.name b.name)
      (fun a b hab => by
        have h₁ := (strLt_iff a.name b.name).mp hab
        exact (strLt_false_iff b.name a.name).mpr (le_of_lt h₁))
      (fun a b c hba hcb => by
        have h₁ := (strLt_false_iff b.name a.name).mp hba
        have h₂ := (strLt_false_iff c.name b.name).mp hcb
        exact (strLt_false_iff c.name a.name).mpr (le_trans h₁ h₂))
      (entries.filter (fun e => e.isDir && (parse_date e.name).isSome))
    refine h.imp (fun hab => ?_)
    exact (strLt_false_iff _ _).mp hab

theorem selectedDates_pairwise (fs : Fs) (days : Int) :
    (selectedDates fs days).Pairwise (fun a b => a ≤ b) := by
  unfold selectedDates selectedDirs sliceLast
  have base := iter_snapshot_dates_pairwise fs
  by_cases h0 : days = 0
  · rw [if_pos h0]
    exact base.map _ (fun a b hab => hab)
  · rw [if_neg h0]
    by_cases hpos : 0 < days
    · rw [if_pos hpos]
      exact ((base.sublist (List.drop_sublist _ _)).map _ (fun a b hab => hab))
    · rw [if_neg hpos]
      exact ((base.sublist (List.drop_sublist _ _)).map _ (fun a b hab => hab))

/-! ### `segsAcc` computes `segs` -/

theorem segsAcc_eq (l : List Char) : ∀ cur : List Char,
    segsAcc cur l =
      if cur.isEmpty then segs l
      else (cur.reverse ++ l.takeWhile isSlugChar) :: segs (l.dropWhile isSlugChar) := by
  induction l with
  | nil =>
    intro cur
    cases cur with
    | nil => simp [segsAcc, segs_nil]
    | cons c t => simp [segsAcc, segs_nil]
  | cons c rest ih =>
    intro cur
    by_cases hc : isSlugChar c
    · rw [show segsAcc cur (c :: rest) = segsAcc (c :: cur) rest from by
        simp [segsAcc, hc]]
      rw [ih (c :: cur)]
      rw [if_neg (by simp)]
      cases cur with
      | nil =>
        rw [if_pos (by simp), segs_cons_slug hc]
        simp
      | cons x t =>
        rw [if_neg (by simp)]
        rw [List.takeWhile_cons_of_pos hc, List.dropWhile_cons_of_pos hc]
        simp
    · have hcf : isSlugChar c = false := by simpa using hc
      cases cur with
      | nil =>
        rw [show segsAcc [] (c :: rest) = segsAcc [] rest from by simp [segsAcc, hcf]]
        rw [ih [], if_pos (by simp), if_pos (by simp),
          segs_cons_nonslug hcf, segs_dropWhile_nonslug]
      | cons x t =>
        rw [show segsAcc (x :: t) (c :: rest) = (x :: t).reverse :: segsAcc [] rest from by
          simp [segsAcc, hcf]]
        rw [ih [], if_pos (by simp), if_neg (by simp)]
        rw [List.takeWhile_cons_of_neg (by simp [hcf]),
          dropWhile_eq_self_of_head hcf, List.append_nil,
          segs_cons_nonslug hcf, segs_dropWhile_nonslug]

theorem labelSkeleton_eq_segsAcc (s : String) :
    labelSkeleton s = segsAcc [] (s.data.map Char.toLower) := by
  rw [segsAcc_eq, if_pos (by simp)]
  rfl

/-! ### Structure of `build_deals` -/

/-- Every store's deals document comes from one of today's files through
`fileOut`. -/
theorem build_deals_mem {fs : Fs} {today : String} {hist : HistOut} {threshold : ℚ}
    {p : String × DealsFile} (hp : p ∈ build_deals fs today hist threshold) :
    today ≠ "" ∧ ∃ f ∈ todayFiles fs today, f.1 ≠ "walmart_all.json" ∧
      p = fileOut hist threshold today f := by
  unfold build_deals at hp
  by_cases ht : today = ""
  · rw [if_pos ht] at hp
    simp at hp
  · rw [if_neg ht] at hp
    refine ⟨ht, ?_⟩
    refine foldl_inv (P := fun acc => ∀ q ∈ acc,
        ∃ f ∈ todayFiles fs today, f.1 ≠ "walmart_all.json" ∧
          q = fileOut hist threshold today f)
      (todayFiles fs today) [] ?_ (by simp) p hp
    intro acc f hf hP q hq
    by_cases hw : f.1 = "walmart_all.json"
    · rw [if_pos hw] at hq
      exact hP q hq
    · rw [if_neg hw] at hq
      rcases AList.mem_set hq with rfl | hold
      · exact ⟨f, hf, hw, rfl⟩
      · exact hP q hold

/-- Every emitted deal of a file's contribution comes from one of its
records through `dealFor`. -/
theorem fileOut_deals_mem {hist : HistOut} {threshold : ℚ} {today : String}
    {f : String × JsonDoc} {d : DealEntry}
    (hd : d ∈ (fileOut hist threshold today f).2.deals) :
    ∃ item ∈ load_items f.2,
      dealFor (historyItemsAt hist (fileSlug f)) threshold item = some d := by
  have hd₁ : d ∈ sortByLt (fun a b => decide (b.drop_pct < a.drop_pct))
      ((load_items f.2).filterMap (dealFor (historyItemsAt hist (fileSlug f)) threshold)) := hd
  rw [mem_sortByLt] at hd₁
  rcases List.mem_filterMap.mp hd₁ with ⟨item, hitem, hsome⟩
  exact ⟨item, hitem, hsome⟩

/-- Full characterisation of a successful `dealFor`. -/
theorem dealFor_eq_some {H : List (String × HistoryEntry)} {threshold : ℚ}
    {item : RawItem} {d : DealEntry}
    (h : dealFor H threshold item = some d) :
    ∃ entry p m, AList.find H (make_item_key item) = some entry ∧
      item.in_stock = true ∧
      to_float item.price_current = some p ∧
      entry.max_30d = some m ∧ 0 < m ∧
      threshold ≤ (m - p) / m * 100 ∧
      d = { item_key := make_item_key item, sku := item.sku, title := item.title,
            price_today := p, max_30d := m,
            drop_pct := round2 ((m - p) / m * 100),
            in_stock := item.in_stock, url := item.url, image := item.image } := by
  simp only [dealFor] at h
  cases hfind : AList.find H (make_item_key item) with
  | none => rw [hfind] at h; cases h
  | some entry =>
    rw [hfind] at h
    simp only at h
    by_cases hstock : item.in_stock = false
    · rw [if_pos hstock] at h; cases h
    · rw [if_neg hstock] at h
      have hstock₁ : item.in_stock = true := by
        cases hx : item.in_stock
        · exact absurd hx hstock
        · rfl
      cases hprice : to_float item.price_current with
      | none =>
        rw [hprice] at h
        cases hmax : entry.max_30d with
        | none => rw [hmax] at h; cases h
        | some m => rw [hmax] at h; cases h
      | some p =>
        rw [hprice] at h
        cases hmax : entry.max_30d with
        | none => rw [hmax] at h; cases h
        | some m =>
          rw [hmax] at h
          simp only at h
          by_cases hm : m ≤ 0
          · rw [if_pos hm] at h; cases h
          · rw [if_neg hm] at h
            by_cases hθ : threshold ≤ (m - p) / m * 100
            · rw [if_pos hθ] at h
              exact ⟨entry, p, m, rfl, hstock₁, rfl, hmax, lt_of_not_le hm, hθ,
                (Option.some.inj h).symm⟩
            · rw [if_neg hθ] at h
              cases h

/-- Conversely, a qualifying record yields exactly this deal. -/
theorem dealFor_eq_some_of {H : List (String × HistoryEntry)} {threshold : ℚ}
    {item : RawItem} {entry : HistoryEntry} {p m : ℚ}
    (hfind : AList.find H (make_item_key item) = some entry)
    (hstock : item.in_stock = true)
    (hprice : to_float item.price_current = some p)
    (hmax : entry.max_30d = some m) (hm : 0 < m)
    (hθ : threshold ≤ (m - p) / m * 100) :
    dealFor H threshold item =
      some { item_key := make_item_key item, sku := item.sku, title := item.title,
             price_today := p, max_30d := m,
             drop_pct := round2 ((m - p) / m * 100),
             in_stock := item.in_stock, url := item.url, image := item.image } := by
  simp only [dealFor]
  rw [hfind]
  simp only
  rw [if_neg (by rw [hstock]; simp), hprice, hmax]
  simp only
  rw [if_neg (not_le_of_lt hm), if_pos hθ]

/-- And a non-qualifying record is skipped. -/
theorem dealFor_eq_none_of {H : List (String × HistoryEntry)} {threshold : ℚ}
    {item : RawItem} {entry : HistoryEntry} {p m : ℚ}
    (hfind : AList.find H (make_item_key item) = some entry)
    (hstock : item.in_stock = true)
    (hprice : to_float item.price_current = some p)
    (hmax : entry.max_30d = some m) (hm : 0 < m)
    (hθ : ¬ threshold ≤ (m - p) / m * 100) :
    dealFor H threshold item = none := by
  simp only [dealFor]
  rw [hfind]
  simp only
  rw [if_neg (by rw [hstock]; simp), hprice, hmax]
  simp only
  rw [if_neg (not_le_of_lt hm), if_neg hθ]

/-- The accumulated deals map after the file fold: the last file with a
given slug wins. -/
theorem build_deals_find_aux (hist : HistOut) (threshold : ℚ) (today : String) :
    ∀ (files : List (String × JsonDoc)) (acc : List (String × DealsFile)) (k : String),
      AList.find
        (files.foldl
          (fun acc f =>
            if f.1 = "walmart_all.json" then acc
            else
              let so := fileOut hist threshold today f
              AList.set acc so.1 so.2)
          acc) k =
      (match (files.filter (fun f => f.1 ≠ "walmart_all.json")).reverse.find?
          (fun f => fileSlug f = k) with
        | some f => some (fileOut hist threshold today f).2
        | none => AList.find acc k) := by
  intro files
  induction files with
  | nil =>
    intro acc k
    simp
  | cons f t ih =>
    intro acc k
    by_cases hw : f.1 = "walmart_all.json"
    · rw [List.foldl_cons, if_pos hw, ih]
      rw [List.filter_cons_of_neg (by simp [hw])]
    · rw [List.foldl_cons, if_neg hw, ih]
      rw [List.filter_cons_of_pos (by simp [hw]), List.reverse_cons,
        List.find?_append]
      cases hfind : (t.filter (fun f => f.1 ≠ "walmart_all.json")).reverse.find?
          (fun f => fileSlug f = k) with
      | some g => simp [hfind]
      | none =>
        simp only [hfind, Option.none_or]
        by_cases hk : fileSlug f = k
        · have h₁ : List.find? (fun g => decide (fileSlug g = k)) [f] = some f := by
            simp [hk]
          simp only [h₁]
          have h₂ : (fileOut hist threshold today f).1 = k := by
            rw [show (fileOut hist threshold today f).1 = fileSlug f from rfl, hk]
          rw [h₂, AList.find_set_self]
        · have h₁ : List.find? (fun g => decide (fileSlug g = k)) [f] = none := by
            simp [hk]
          simp only [h₁]
          have h₂ : k ≠ (fileOut hist threshold today f).1 := by
            rw [show (fileOut hist threshold today f).1 = fileSlug f from rfl]
            exact fun h => hk h.symm
          rw [AList.find_set_ne _ _ _ _ h₂]

/-! ## The claims -/

set_option maxRecDepth 200000

/-- C1: for every run, every `HistoryEntry` in the built history index has
a `history` sequence with exactly one `DayObservation` per selected window
date, in ascending date order; and on every date on which the item was not
observed for that store the observation is
`{date, price := none, in_stock := false, present := false}`. -/
theorem claim_C1_dense_window {fs : Fs} {days : Int} {uAt : String}
    {out : HistOut} {today slug : String} {store : StoreOut} {key : String}
    {entry : HistoryEntry}
    (h : build_history fs days uAt = some (out, today))
    (hs : (slug, store) ∈ out) (hk : (key, entry) ∈ store.items) :
    entry.history.length = (selectedDates fs days).length ∧
    entry.history.map (fun o => o.date) = selectedDates fs days ∧
    (entry.history.map (fun o => o.date)).Pairwise (fun a b => a ≤ b) ∧
    ∀ obs ∈ entry.history, ¬ observedIn (selectedDirs fs days) slug key obs.date →
      obs.price = none ∧ obs.in_stock = false ∧ obs.present = false := by
  obtain ⟨e, rfl, hInvE⟩ := build_history_mem h hs hk
  obtain ⟨hdates, hobs⟩ := finalizeEntry_spec hInvE (selectedDates fs days)
  refine ⟨?_, hdates, ?_, ?_⟩
  · simpa using congrArg List.length hdates
  · rw [hdates]
    exact selectedDates_pairwise fs days
  · intro obs hmem hnobs
    obtain ⟨hpres, habs⟩ := hobs obs hmem
    cases hp : obs.present with
    | false =>
      have h₁ := habs hp
      refine ⟨?_, ?_, rfl⟩
      · rw [h₁]
      · rw [h₁]
    | true => exact absurd (hpres hp) hnobs

/-- C1 witness: a concrete two-day run in which the sole item is observed
on both dates. -/
theorem claim_C1_witness :
    build_history fsW 30 "T" = some ([("my-store", storeW)], "2024-01-02") ∧
    (entryW.history.length = (selectedDates fsW 30).length ∧
     entryW.history.map (fun o => o.date) = selectedDates fsW 30 ∧
     (entryW.history.map (fun o => o.date)).Pairwise (fun a b => a ≤ b) ∧
     ∀ obs ∈ entryW.history,
       ¬ observedIn (selectedDirs fsW 30) "my-store" "sku:X" obs.date →
         obs.price = none ∧ obs.in_stock = false ∧ obs.present = false) :=
  ⟨by with_unfolding_all decide,
    @claim_C1_dense_window fsW 30 "T" [("my-store", storeW)] "2024-01-02"
      "my-store" storeW "sku:X" entryW (by with_unfolding_all decide)
      (by with_unfolding_all decide) (by with_unfolding_all decide)⟩

/-- C2: for every `HistoryEntry` produced by the history builder, `max_30d`
is the maximum and `min_30d` the minimum of the prices of exactly the
`present = true, price ≠ none` observations of its window, and both are
`none` exactly when no such observation exists. -/
theorem claim_C2_rolling_extrema {fs : Fs} {days : Int} {uAt : String}
    {out : HistOut} {today slug : String} {store : StoreOut} {key : String}
    {entry : HistoryEntry}
    (h : build_history fs days uAt = some (out, today))
    (hs : (slug, store) ∈ out) (hk : (key, entry) ∈ store.items) :
    (entry.max_30d = none ↔ presentPrices entry.history = []) ∧
    (∀ m, entry.max_30d = some m →
      m ∈ presentPrices entry.history ∧ ∀ p ∈ presentPrices entry.history, p ≤ m) ∧
    (entry.min_30d = none ↔ presentPrices entry.history = []) ∧
    (∀ m, entry.min_30d = some m →
      m ∈ presentPrices entry.history ∧ ∀ p ∈ presentPrices entry.history, m ≤ p) := by
  obtain ⟨e, rfl, -⟩ := build_history_mem h hs hk
  have hmax : (finalizeEntry (selectedDates fs days) e).max_30d =
      listMax (presentPrices ((finalizeEntry (selectedDates fs days) e).history)) := rfl
  have hmin : (finalizeEntry (selectedDates fs days) e).min_30d =
      listMin (presentPrices ((finalizeEntry (selectedDates fs days) e).history)) := rfl
  refine ⟨?_, ?_, ?_, ?_⟩
  · rw [hmax]
    exact listMax_eq_none
  · intro m hm
    rw [hmax] at hm
    exact listMax_spec hm
  · rw [hmin]
    exact listMin_eq_none
  · intro m hm
    rw [hmin] at hm
    exact listMin_spec hm

/-- C2 witness: the concrete run of `fsW`, where the extrema are 10 and 7. -/
theorem claim_C2_witness :
    build_history fsW 30 "T" = some ([("my-store", storeW)], "2024-01-02") ∧
    entryW.max_30d = some 10 ∧ entryW.min_30d = some 7 ∧
    ((entryW.max_30d = none ↔ presentPrices entryW.history = []) ∧
     (∀ m, entryW.max_30d = some m →
       m ∈ presentPrices entryW.history ∧ ∀ p ∈ presentPrices entryW.history, p ≤ m) ∧
     (entryW.min_30d = none ↔ presentPrices entryW.history = []) ∧
     (∀ m, entryW.min_30d = some m →
       m ∈ presentPrices entryW.history ∧ ∀ p ∈ presentPrices entryW.history, m ≤ p)) :=
  ⟨by with_unfolding_all decide, by with_unfolding_all decide,
    by with_unfolding_all decide,
    @claim_C2_rolling_extrema fsW 30 "T" [("my-store", storeW)] "2024-01-02"
      "my-store" storeW "sku:X" entryW (by with_unfolding_all decide)
      (by with_unfolding_all decide) (by with_unfolding_all decide)⟩

/-- C9: on a document whose top level is neither a sequence nor an object
with an `items` sequence, the core reader returns the empty record list
while the splitting collaborator's reader fails hard; on supported shapes
both drop non-record elements. -/
theorem claim_C9_reader_divergence :
    (∀ doc : JsonDoc, (∀ es, doc ≠ .arr es ∧ doc ≠ .objItems es) →
      load_items doc = [] ∧
      load_items_split doc = .error "Unsupported input format") ∧
    (∀ es, load_items (.arr es) =
        es.filterMap (fun e => match e with | .record r => some r | .nonRecord => none) ∧
      load_items_split (.arr es) = .ok (load_items (.arr es))) ∧
    (∀ es, load_items (.objItems es) =
        es.filterMap (fun e => match e with | .record r => some r | .nonRecord => none) ∧
      load_items_split (.objItems es) = .ok (load_items (.objItems es))) := by
  refine ⟨?_, ?_, ?_⟩
  · intro doc hdoc
    cases doc with
    | arr es => exact absurd rfl (hdoc es).1
    | objItems es => exact absurd rfl (hdoc es).2
    | objOther => exact ⟨rfl, rfl⟩
    | scalar => exact ⟨rfl, rfl⟩
  · intro es
    exact ⟨rfl, rfl⟩
  · intro es
    exact ⟨rfl, rfl⟩

/-- C9 witness: a scalar top level is recovered as empty by the core and
rejected by the splitter; a list with one record and one non-record keeps
exactly the record. -/
theorem claim_C9_witness :
    (load_items JsonDoc.scalar = [] ∧
      load_items_split JsonDoc.scalar = .error "Unsupported input format") ∧
    load_items (.arr [.record itemW1, .nonRecord]) = [itemW1] :=
  ⟨claim_C9_reader_divergence.1 JsonDoc.scalar
      (fun es => ⟨fun h => JsonDoc.noConfusion h, fun h => JsonDoc.noConfusion h⟩),
    by with_unfolding_all decide⟩

/-- C3: the deal detector never emits an entry for a record whose resolved
key has no history entry, that is out of stock, whose parsed price is
null, or whose rolling high is null or non-positive: every emitted deal is
backed by a record passing all four guards, so the drop computation's
denominator is positive. -/
theorem claim_C3_guards {fs : Fs} {today : String} {hist : HistOut}
    {threshold : ℚ} {slug : String} {outf : DealsFile} {d : DealEntry}
    (hmem : (slug, outf) ∈ build_deals fs today hist threshold)
    (hd : d ∈ outf.deals) :
    ∃ f ∈ todayFiles fs today, f.1 ≠ "walmart_all.json" ∧ slug = fileSlug f ∧
      ∃ item ∈ load_items f.2, ∃ entry : HistoryEntry,
        make_item_key item = d.item_key ∧
        AList.find (historyItemsAt hist (fileSlug f)) (make_item_key item) = some entry ∧
        item.in_stock = true ∧
        to_float item.price_current = some d.price_today ∧
        entry.max_30d = some d.max_30d ∧
        0 < d.max_30d := by
  rcases build_deals_mem hmem with ⟨-, f, hf, hw, heq⟩
  have hslug : slug = fileSlug f := congrArg Prod.fst heq
  have hout : outf = (fileOut hist threshold today f).2 := congrArg Prod.snd heq
  rw [hout] at hd
  rcases fileOut_deals_mem hd with ⟨item, hitem, hsome⟩
  rcases dealFor_eq_some hsome with ⟨entry, p, m, hfind, hstock, hprice, hmax, hm, hθ, deq⟩
  refine ⟨f, hf, hw, hslug, item, hitem, entry, ?_, hfind, hstock, ?_, ?_, ?_⟩
  · rw [deq]
  · rw [deq]
    exact hprice
  · rw [deq]
    exact hmax
  · rw [deq]
    exact hm

/-- C3 witness: the one emitted deal of the concrete run satisfies every
guard. -/
theorem claim_C3_witness :
    build_deals fsW "2024-01-02" histW 15 = [("my-store", dealsFileW)] ∧
    dealW ∈ dealsFileW.deals ∧
    (∃ f ∈ todayFiles fsW "2024-01-02", f.1 ≠ "walmart_all.json" ∧
      "my-store" = fileSlug f ∧
      ∃ item ∈ load_items f.2, ∃ entry : HistoryEntry,
        make_item_key item = dealW.item_key ∧
        AList.find (historyItemsAt histW (fileSlug f)) (make_item_key item) = some entry ∧
        item.in_stock = true ∧
        to_float item.price_current = some dealW.price_today ∧
        entry.max_30d = some dealW.max_30d ∧
        0 < dealW.max_30d) :=
  ⟨by with_unfolding_all decide, by with_unfolding_all decide,
    @claim_C3_guards fsW "2024-01-02" histW 15 "my-store" dealsFileW dealW
      (by with_unfolding_all decide) (by with_unfolding_all decide)⟩

/-- C8: every store's deals list is sorted descending by `drop_pct`, and
the sort is stable: within each tie class of equal `drop_pct` the entries
appear exactly in the order the records were encountered in the
today-file. -/
theorem claim_C8_sorted_stable {fs : Fs} {today : String} {hist : HistOut}
    {threshold : ℚ} {slug : String} {outf : DealsFile}
    (hmem : (slug, outf) ∈ build_deals fs today hist threshold) :
    outf.deals.Pairwise (fun a b => b.drop_pct ≤ a.drop_pct) ∧
    ∃ f ∈ todayFiles fs today, f.1 ≠ "walmart_all.json" ∧ slug = fileSlug f ∧
      ∀ q : ℚ, outf.deals.filter (fun d => d.drop_pct = q) =
        ((load_items f.2).filterMap
          (dealFor (historyItemsAt hist (fileSlug f)) threshold)).filter
          (fun d => d.drop_pct = q) := by
  rcases build_deals_mem hmem with ⟨-, f, hf, hw, heq⟩
  have hslug : slug = fileSlug f := congrArg Prod.fst heq
  have hout : outf = (fileOut hist threshold today f).2 := congrArg Prod.snd heq
  constructor
  · rw [hout]
    have hp := sortByLt_pairwise (fun a b : DealEntry => decide (b.drop_pct < a.drop_pct))
      (fun a b hab => by
        simp only [decide_eq_true_eq] at hab
        exact decide_eq_false (not_lt_of_gt hab))
      (fun a b c hba hcb => by
        simp only [decide_eq_false_iff_not, not_lt] at hba hcb
        exact decide_eq_false (not_lt.mpr (le_trans hcb hba)))
      ((load_items f.2).filterMap (dealFor (historyItemsAt hist (fileSlug f)) threshold))
    refine hp.imp (fun hab => ?_)
    simpa [not_lt] using hab
  · refine ⟨f, hf, hw, hslug, fun q => ?_⟩
    rw [hout]
    exact filter_sortByLt _ _ _ (fun a b ha hb => by
      simp only [decide_eq_true_eq] at ha hb
      rw [ha, hb]
      simp)

/-- C8 witness: the concrete run's single deal list is sorted and
tie-stable. -/
theorem claim_C8_witness :
    build_deals fsW "2024-01-02" histW 15 = [("my-store", dealsFileW)] ∧
    (dealsFileW.deals.Pairwise (fun a b => b.drop_pct ≤ a.drop_pct) ∧
     ∃ f ∈ todayFiles fsW "2024-01-02", f.1 ≠ "walmart_all.json" ∧
       "my-store" = fileSlug f ∧
       ∀ q : ℚ, dealsFileW.deals.filter (fun d => d.drop_pct = q) =
         ((load_items f.2).filterMap
           (dealFor (historyItemsAt histW (fileSlug f)) 15)).filter
           (fun d => d.drop_pct = q)) :=
  ⟨by with_unfolding_all decide,
    @claim_C8_sorted_stable fsW "2024-01-02" histW 15 "my-store" dealsFileW
      (by with_unfolding_all decide)⟩

/-- C10: the store slug a today-file contributes under is determined
solely by its first record (or the bare file stem when it has no records);
per-record store fields of individual records never affect their deal
computation; and when two files resolve to the same slug the later file's
document replaces the earlier one's in the output map. -/
theorem claim_C10_single_store_slug :
    (∀ (H : List (String × HistoryEntry)) (threshold : ℚ) (item : RawItem)
        (s₁ s₂ : Option String),
      dealFor H threshold { item with store_slug := s₁, store := s₂ } =
        dealFor H threshold item) ∧
    (∀ (name : String) (doc doc₁ : JsonDoc),
      (load_items doc).head? = (load_items doc₁).head? →
      fileSlug (name, doc) = fileSlug (name, doc₁)) ∧
    (∀ (fs : Fs) (today : String) (hist : HistOut) (threshold : ℚ) (k : String),
      today ≠ "" →
      AList.find (build_deals fs today hist threshold) k =
        (((todayFiles fs today).filter
            (fun f => f.1 ≠ "walmart_all.json")).reverse.find?
          (fun f => fileSlug f = k)).map
          (fun f => (fileOut hist threshold today f).2)) := by
  refine ⟨?_, ?_, ?_⟩
  · intro H threshold item s₁ s₂
    cases item
    rfl
  · intro name doc doc₁ h
    simp only [fileSlug]
    cases h₁ : load_items doc with
    | nil =>
      cases h₂ : load_items doc₁ with
      | nil => rfl
      | cons i t =>
        rw [h₁, h₂] at h
        simp at h
    | cons i t =>
      cases h₂ : load_items doc₁ with
      | nil =>
        rw [h₁, h₂] at h
        simp at h
      | cons j u =>
        rw [h₁, h₂] at h
        simp only [List.head?_cons, Option.some.injEq] at h
        rw [h]
  · intro fs today hist threshold k ht
    unfold build_deals
    rw [if_neg ht]
    rw [build_deals_find_aux hist threshold today (todayFiles fs today) [] k]
    cases hfind : ((todayFiles fs today).filter
        (fun f => f.1 ≠ "walmart_all.json")).reverse.find? (fun f => fileSlug f = k) with
    | some g => simp [hfind]
    | none => simp [hfind, AList.find]

/-- C10 witness: the per-record store fields of a record do not change its
deal; the slug of a file depends only on its first record; the final map
is the last-file-wins fold. -/
theorem claim_C10_witness :
    dealFor (historyItemsAt histW "my-store") 15
        { itemW2 with store_slug := some "Other Store", store := some "Elsewhere" } =
      dealFor (historyItemsAt histW "my-store") 15 itemW2 ∧
    fileSlug ("my-store.json", .arr [.record itemW2, .record itemC6]) =
      fileSlug ("my-store.json", .arr [.record itemW2]) ∧
    AList.find (build_deals fsW "2024-01-02" histW 15) "my-store" = some dealsFileW :=
  ⟨claim_C10_single_store_slug.1 (historyItemsAt histW "my-store") 15 itemW2
      (some "Other Store") (some "Elsewhere"),
    claim_C10_single_store_slug.2.1 "my-store.json"
      (.arr [.record itemW2, .record itemC6]) (.arr [.record itemW2])
      (by with_unfolding_all decide),
    by
      rw [claim_C10_single_store_slug.2.2 fsW "2024-01-02" histW 15 "my-store"
        (by decide)]
      with_unfolding_all decide⟩

/-- C4 (amended): for a record passing the guards with parsed price `p`
and rolling high `m`, the raw drop `(m - p) / m * 100` is compared
against the threshold UNROUNDED: the record is included iff the raw drop
reaches the threshold, and the stored `drop_pct` field is the raw drop
rounded to two decimals (half-to-even); conversely every emitted deal
has a raw drop at or above the threshold and a rounded `drop_pct`
field. -/
theorem claim_C4_threshold :
    (∀ (hist : HistOut) (threshold : ℚ) (today : String) (f : String × JsonDoc)
        (item : RawItem) (entry : HistoryEntry) (p m : ℚ),
      item ∈ load_items f.2 →
      AList.find (historyItemsAt hist (fileSlug f)) (make_item_key item) = some entry →
      item.in_stock = true →
      to_float item.price_current = some p →
      entry.max_30d = some m →
      0 < m →
      ((threshold ≤ (m - p) / m * 100 →
        ∃ d ∈ (fileOut hist threshold today f).2.deals,
          d.item_key = make_item_key item ∧ d.price_today = p ∧ d.max_30d = m ∧
            d.drop_pct = round2 ((m - p) / m * 100)) ∧
       (¬ threshold ≤ (m - p) / m * 100 →
        dealFor (historyItemsAt hist (fileSlug f)) threshold item = none))) ∧
    (∀ (fs : Fs) (today : String) (hist : HistOut) (threshold : ℚ)
        (slug : String) (outf : DealsFile) (d : DealEntry),
      (slug, outf) ∈ build_deals fs today hist threshold → d ∈ outf.deals →
      threshold ≤ (d.max_30d - d.price_today) / d.max_30d * 100 ∧
      d.drop_pct = round2 ((d.max_30d - d.price_today) / d.max_30d * 100)) := by
  constructor
  · intro hist threshold today f item entry p m hitem hfind hstock hprice hmax hm
    constructor
    · intro hθ
      refine ⟨{ item_key := make_item_key item, sku := item.sku, title := item.title,
                price_today := p, max_30d := m, drop_pct := round2 ((m - p) / m * 100),
                in_stock := item.in_stock, url := item.url, image := item.image },
              ?_, rfl, rfl, rfl, rfl⟩
      exact (mem_sortByLt _ _ _).mpr
        (List.mem_filterMap.mpr
          ⟨item, hitem, dealFor_eq_some_of hfind hstock hprice hmax hm hθ⟩)
    · intro hθ
      exact dealFor_eq_none_of hfind hstock hprice hmax hm hθ
  · intro fs today hist threshold slug outf d hmem hd
    rcases build_deals_mem hmem with ⟨-, f, -, -, heq⟩
    have hout : outf = (fileOut hist threshold today f).2 := congrArg Prod.snd heq
    rw [hout] at hd
    rcases fileOut_deals_mem hd with ⟨item, -, hsome⟩
    rcases dealFor_eq_some hsome with ⟨entry, p, m, -, -, -, -, -, hθ, deq⟩
    subst deq
    exact ⟨hθ, rfl⟩

/-- C4 counterexample: a record whose raw drop is `14.995 %` — strictly
below the threshold `15` — is excluded by the code although its rounded
drop is exactly `15 ≥ 15`: inclusion is decided on the unrounded value,
not on the rounded `drop_pct` of the claim. -/
theorem claim_C4_counterexample :
    load_items (JsonDoc.arr [.record itemC4]) = [itemC4] ∧
    AList.find (historyItemsAt histC4 (fileSlug ("s.json", .arr [.record itemC4])))
      (make_item_key itemC4) = some entryC4 ∧
    itemC4.in_stock = true ∧
    (to_float itemC4.price_current).isSome = true ∧
    entryC4.max_30d = some 20 ∧
    (0 : ℚ) < 20 ∧
    ((20 : ℚ) - (to_float itemC4.price_current).getD 0) / 20 * 100 < 15 ∧
    (15 : ℚ) ≤ round2 (((20 : ℚ) - (to_float itemC4.price_current).getD 0) / 20 * 100) ∧
    build_deals fsC4 "2024-01-02" histC4 15 =
      [("s", { date := "2024-01-02", store_slug := "s", deals := [] })] := by
  with_unfolding_all decide

/-- C4 witness: the concrete fixture's raw drop `30 ≥ 15` yields an
emitted deal with the rounded field, and the emitted deal of the full
run satisfies the raw-drop threshold bound. -/
theorem claim_C4_witness :
    (∃ d ∈ (fileOut histW 15 "2024-01-02"
        ("my-store.json", JsonDoc.arr [.record itemW2])).2.deals,
      d.item_key = make_item_key itemW2 ∧ d.price_today = 7 ∧ d.max_30d = 10 ∧
        d.drop_pct = round2 (((10 : ℚ) - 7) / 10 * 100)) ∧
    ((15 : ℚ) ≤ (dealW.max_30d - dealW.price_today) / dealW.max_30d * 100 ∧
      dealW.drop_pct = round2 ((dealW.max_30d - dealW.price_today) / dealW.max_30d * 100)) :=
  ⟨(claim_C4_threshold.1 histW 15 "2024-01-02"
      ("my-store.json", JsonDoc.arr [.record itemW2]) itemW2 entryW 7 10
      (by with_unfolding_all decide) (by with_unfolding_all decide)
      (by with_unfolding_all decide) (by with_unfolding_all decide)
      (by with_unfolding_all decide) (by with_unfolding_all decide)).1
      (by with_unfolding_all decide),
    claim_C4_threshold.2 fsW "2024-01-02" histW 15 "my-store" dealsFileW dealW
      (by with_unfolding_all decide) (by with_unfolding_all decide)⟩

/-- Any date triple accepted by `parse_date` is a valid calendar date:
year at least 1, month in 1..12, day in 1..(days of that month). -/
theorem parse_date_sound {s : String} {y m d : Nat}
    (h : parse_date s = some (y, m, d)) :
    1 ≤ y ∧ 1 ≤ m ∧ m ≤ 12 ∧ 1 ≤ d ∧ d ≤ daysInMonth y m := by
  simp only [parse_date, parseDateChars] at h
  split at h
  · split at h
    · split at h
      · split at h
        · split at h
          · rename_i hcond
            simp only [Bool.and_eq_true, decide_eq_true_eq] at hcond
            obtain ⟨⟨⟨⟨⟨⟨⟨⟨⟨h1, h2⟩, h3⟩, h4⟩, h5⟩, h6⟩, h7⟩, h8⟩, h9⟩, h10⟩ := hcond
            simp only [Option.some.injEq, Prod.mk.injEq] at h
            obtain ⟨rfl, rfl, rfl⟩ := h
            exact ⟨h9, h5, h6, h7, h10⟩
          · cases h
        · cases h
      · cases h
    · cases h
  · cases h

/-- C5 (amended): the window selection keeps exactly the directories whose
names `strptime`-parse (which also accepts non-zero-padded month and day
fields, so by-name sorting need not coincide with date order), every
accepted name is a valid calendar date, the listing is sorted ascending by
the name string, the window is a suffix of the sorted listing of length
`min total days` for positive `days`, an empty listing makes the run a
no-op, the last selected date is the reported `today`, and that `today` is
the date handed to the deal detector. -/
theorem claim_C5_window :
    (∀ (fs : Fs) (e : FsEntry),
      e ∈ iter_snapshot_dates fs ↔
        e ∈ fs.snapshots.getD [] ∧ e.isDir = true ∧ (parse_date e.name).isSome = true) ∧
    (∀ fs : Fs, (iter_snapshot_dates fs).Pairwise (fun a b => a.name ≤ b.name)) ∧
    (∀ (s : String) (y m d : Nat), parse_date s = some (y, m, d) →
      1 ≤ y ∧ 1 ≤ m ∧ m ≤ 12 ∧ 1 ≤ d ∧ d ≤ daysInMonth y m) ∧
    (∀ (fs : Fs) (days : Int), 0 < days →
      (selectedDirs fs days).length = min (iter_snapshot_dates fs).length days.toNat ∧
      List.IsSuffix (selectedDirs fs days) (iter_snapshot_dates fs)) ∧
    (∀ (fs : Fs) (days : Int) (threshold : ℚ) (u : String),
      iter_snapshot_dates fs = [] →
      build_history fs days u = some ([], "") ∧
      run_pipeline fs days threshold u = some ([], [])) ∧
    (∀ (fs : Fs) (days : Int) (u : String) (hist : HistOut) (today : String),
      build_history fs days u = some (hist, today) → iter_snapshot_dates fs ≠ [] →
      (selectedDates fs days).getLast? = some today) ∧
    (∀ (fs : Fs) (days : Int) (threshold : ℚ) (u : String) (hist : HistOut)
        (deals : List (String × DealsFile)),
      run_pipeline fs days threshold u = some (hist, deals) → hist ≠ [] →
      ∃ today, build_history fs days u = some (hist, today) ∧
        deals = build_deals fs today hist threshold) := by
  refine ⟨?_, ?_, ?_, ?_, ?_, ?_, ?_⟩
  · intro fs e
    unfold iter_snapshot_dates
    cases hs : fs.snapshots with
    | none => simp [hs]
    | some entries =>
      simp only [hs, Option.getD_some, mem_sortByLt, List.mem_filter, Bool.and_eq_true,
        and_assoc]
  · exact iter_snapshot_dates_pairwise
  · intro s y m d h
    exact parse_date_sound h
  · intro fs days hpos
    have hne : ¬ days = 0 := by omega
    simp only [selectedDirs, sliceLast, if_neg hne, if_pos hpos]
    refine ⟨?_, List.drop_suffix _ _⟩
    rw [List.length_drop]
    omega
  · intro fs days threshold u hempty
    have hb : build_history fs days u = some ([], "") := by
      simp [build_history, hempty]
    refine ⟨hb, ?_⟩
    simp [run_pipeline, hb]
  · intro fs days u hist today h hne
    simp only [build_history] at h
    rw [if_neg (by simpa [List.isEmpty_iff] using hne)] at h
    cases hlast : ((sliceLast days (iter_snapshot_dates fs)).map (fun e => e.name)).getLast? with
    | none => rw [hlast] at h; cases h
    | some t =>
      rw [hlast] at h
      simp only [Option.some.injEq, Prod.mk.injEq] at h
      obtain ⟨-, rfl⟩ := h
      exact hlast
  · intro fs days threshold u hist deals h hne
    simp only [run_pipeline] at h
    cases hb : build_history fs days u with
    | none => rw [hb] at h; cases h
    | some pr =>
      obtain ⟨hist0, today0⟩ := pr
      rw [hb] at h
      simp only at h
      by_cases he : hist0.isEmpty
      · rw [if_pos he] at h
        simp only [Option.some.injEq, Prod.mk.injEq] at h
        obtain ⟨rfl, rfl⟩ := h
        exact absurd (List.isEmpty_iff.mp he) hne
      · rw [if_neg he] at h
        simp only [Option.some.injEq, Prod.mk.injEq] at h
        obtain ⟨rfl, rfl⟩ := h
        exact ⟨today0, rfl, rfl⟩

/-- C5 counterexample: `strptime "%Y-%m-%d"` accepts the non-padded name
`2024-9-1`, which is not of the claim's zero-padded `YYYY-MM-DD` form, and
by-name sorting places it after `2024-10-01` although it is the earlier
calendar date — so it even becomes the reported `today`. -/
theorem claim_C5_counterexample :
    parse_date "2024-9-1" = some (2024, 9, 1) ∧
    parse_date "2024-10-01" = some (2024, 10, 1) ∧
    claimPaddedDate "2024-9-1" = false ∧
    (iter_snapshot_dates fsC5).map (fun e => e.name) = ["2024-10-01", "2024-9-1"] ∧
    strLt "2024-10-01" "2024-9-1" = true ∧
    build_history fsC5 30 "T" = some ([], "2024-9-1") := by
  with_unfolding_all decide

/-- C5 witness: the window facts instantiated on the concrete two-day
tree. -/
theorem claim_C5_witness :
    ((selectedDirs fsW 30).length =
        min (iter_snapshot_dates fsW).length (30 : Int).toNat ∧
      List.IsSuffix (selectedDirs fsW 30) (iter_snapshot_dates fsW)) ∧
    (1 ≤ 2024 ∧ 1 ≤ 9 ∧ 9 ≤ 12 ∧ 1 ≤ 1 ∧ 1 ≤ daysInMonth 2024 9) ∧
    (selectedDates fsW 30).getLast? = some "2024-01-02" :=
  ⟨claim_C5_window.2.2.2.1 fsW 30 (by decide),
    claim_C5_window.2.2.1 "2024-9-1" 2024 9 1 (by with_unfolding_all decide),
    claim_C5_window.2.2.2.2.2.1 fsW 30 "T" [("my-store", storeW)] "2024-01-02"
      (by with_unfolding_all decide) (by with_unfolding_all decide)⟩

/-- C6 (amended): when `store_slug or store` yields a truthy label the
normaliser returns its slugified form, and slugification is fully
determined by the label's skeleton of lower-cased alphanumeric runs (so
labels differing only in case, whitespace or punctuation normalise
alike, and an all-punctuation or empty label slugifies to the reserved
`unknown-store`); but when both fields are absent or falsy the filename
fallback is returned UNCHANGED, not slugified as the claim states. -/
theorem claim_C6_normalize :
    (∀ (item : RawItem) (fallback s : String),
      orStr item.store_slug item.store = some s → s ≠ "" →
      normalize_store_slug item fallback = slugify s) ∧
    (∀ (item : RawItem) (fallback : String),
      orStr item.store_slug item.store = none ∨
        orStr item.store_slug item.store = some "" →
      normalize_store_slug item fallback = fallback) ∧
    (∀ v : String,
      slugify v = if labelSkeleton v = [] then "unknown-store"
        else String.mk (joinSegs (labelSkeleton v))) ∧
    (∀ v w : String, labelSkeleton v = labelSkeleton w → slugify v = slugify w) := by
  refine ⟨?_, ?_, slugify_eq_skeleton, fun v w h => slugify_skeleton_invariant h⟩
  · intro item fallback s hor hs
    simp only [normalize_store_slug, hor]
    rw [if_neg hs]
  · intro item fallback h
    rcases h with h | h
    · simp only [normalize_store_slug, h]
    · simp [normalize_store_slug, h]

/-- C6 counterexample: a record with no store fields and the raw filename
stem `My Store` as fallback: the normaliser returns `My Store` verbatim,
not its slug `my-store` — the fallback branch does not slugify. -/
theorem claim_C6_counterexample :
    orStr itemC6.store_slug itemC6.store = none ∧
    normalize_store_slug itemC6 "My Store" = "My Store" ∧
    slugify "My Store" = "my-store" ∧
    normalize_store_slug itemC6 "My Store" ≠ slugify "My Store" := by
  with_unfolding_all decide

/-- C6 witness: a truthy label is slugified, and two labels differing only
in case, whitespace and punctuation slugify identically. -/
theorem claim_C6_witness :
    normalize_store_slug itemW1 "fb" = slugify "My Store!" ∧
    slugify "My Store!" = slugify " my STORE " :=
  ⟨claim_C6_normalize.1 itemW1 "fb" "My Store!" (by with_unfolding_all decide)
      (by decide),
    claim_C6_normalize.2.2.2 "My Store!" " my STORE "
      (by rw [labelSkeleton_eq_segsAcc, labelSkeleton_eq_segsAcc]
          with_unfolding_all decide)⟩

theorem word32Bytes_length (x : Nat) : (word32Bytes x).length = 4 := rfl

theorem sha1_length (msg : List Nat) : (sha1 msg).length = 20 := by
  simp only [sha1]
  obtain ⟨h0, h1, h2, h3, h4⟩ :=
    (chunks64 (sha1Pad msg)).foldl sha1Block
      (1732584193, 4023233417, 2562383102, 271733878, 3285377520)
  simp [word32Bytes_length]

theorem toHex_length (l : List Nat) : (toHex l).length = 2 * l.length := by
  induction l with
  | nil => rfl
  | cons b t ih =>
    simp only [toHex, List.flatMap_cons] at ih ⊢
    simp [ih]
    omega

theorem fingerprint16_length (t i : String) : (fingerprint16 t i).length = 16 := by
  show ((toHex (sha1 (utf8Bytes (t ++ "|" ++ i)))).take 16).length = 16
  rw [List.length_take, toHex_length, sha1_length]
  decide

theorem hexChar_hex : ∀ n, n < 16 →
    (hexChar n).isDigit = true ∨ ('a' ≤ hexChar n ∧ hexChar n ≤ 'f') := by decide

theorem fingerprint16_hex (t i : String) :
    ∀ c ∈ (fingerprint16 t i).data,
      c.isDigit = true ∨ ('a' ≤ c ∧ c ≤ 'f') := by
  intro c hc
  have hc₁ : c ∈ toHex (sha1 (utf8Bytes (t ++ "|" ++ i))) :=
    List.take_subset 16 _ hc
  simp only [toHex, List.mem_flatMap, List.mem_cons, List.mem_singleton] at hc₁
  obtain ⟨b, -, hb⟩ := hc₁
  rcases hb with rfl | rfl | h
  · exact hexChar_hex _ (Nat.mod_lt _ (by decide))
  · exact hexChar_hex _ (Nat.mod_lt _ (by decide))
  · cases h

/-- A record with no usable sku and no url id takes the content-hash
tier. -/
theorem make_item_key_hash {c : RawItem} (hsku : c.sku = none ∨ c.sku = some "")
    (hurl : extract_url_id c.url = none) :
    make_item_key c = "hash:" ++ fingerprint16 (c.title.getD "") (c.image.getD "") := by
  simp only [make_item_key]
  rw [if_neg (by rcases hsku with h | h <;> simp [h]), hurl]

/-- C7: for records lacking both a usable sku and an extractable url id,
the key is `hash:` followed by the 16 lower-case-hex-character content
fingerprint of the (title, image) pair; identical pairs give identical
keys, and distinct fingerprints give distinct keys. -/
theorem claim_C7_hash_tier :
    ∀ a b : RawItem,
      (a.sku = none ∨ a.sku = some "") → extract_url_id a.url = none →
      (b.sku = none ∨ b.sku = some "") → extract_url_id b.url = none →
      (make_item_key a = "hash:" ++ fingerprint16 (a.title.getD "") (a.image.getD "")) ∧
      ((fingerprint16 (a.title.getD "") (a.image.getD "")).length = 16) ∧
      (∀ c ∈ (fingerprint16 (a.title.getD "") (a.image.getD "")).data,
        c.isDigit = true ∨ ('a' ≤ c ∧ c ≤ 'f')) ∧
      (a.title = b.title → a.image = b.image → make_item_key a = make_item_key b) ∧
      (fingerprint16 (a.title.getD "") (a.image.getD "") ≠
          fingerprint16 (b.title.getD "") (b.image.getD "") →
        make_item_key a ≠ make_item_key b) := by
  intro a b hska hua hskb hub
  refine ⟨make_item_key_hash hska hua, fingerprint16_length _ _, fingerprint16_hex _ _,
    ?_, ?_⟩
  · intro ht hi
    rw [make_item_key_hash hska hua, make_item_key_hash hskb hub, ht, hi]
  · intro hne heq
    rw [make_item_key_hash hska hua, make_item_key_hash hskb hub] at heq
    apply hne
    have hdata := congrArg String.data heq
    simp only [String.data_append] at hdata
    exact String.toList_inj.mp (List.append_cancel_left hdata)

/-- C7 witness: two concrete tier-three records differing only in title:
hash-prefixed 16-hex keys, and their fingerprints indeed differ, so their
keys differ. -/
theorem claim_C7_witness :
    (itemC7a.sku = none ∨ itemC7a.sku = some "") ∧
    extract_url_id itemC7a.url = none ∧
    make_item_key itemC7a =
      "hash:" ++ fingerprint16 (itemC7a.title.getD "") (itemC7a.image.getD "") ∧
    (fingerprint16 (itemC7a.title.getD "") (itemC7a.image.getD "")).length = 16 ∧
    (itemC7a.title = itemC7b.title → itemC7a.image = itemC7b.image →
      make_item_key itemC7a = make_item_key itemC7b) ∧
    (fingerprint16 (itemC7a.title.getD "") (itemC7a.image.getD "") ≠
        fingerprint16 (itemC7b.title.getD "") (itemC7b.image.getD "") →
      make_item_key itemC7a ≠ make_item_key itemC7b) ∧
    fingerprint16 (itemC7a.title.getD "") (itemC7a.image.getD "") ≠
      fingerprint16 (itemC7b.title.getD "") (itemC7b.image.getD "") := by
  have h := claim_C7_hash_tier itemC7a itemC7b (Or.inl rfl) (by decide)
    (Or.inl rfl) (by decide)
  exact ⟨Or.inl rfl, by decide, h.1, h.2.1, h.2.2.2.1, h.2.2.2.2,
    by with_unfolding_all decide⟩

end EconoPlus
